import Mathlib

/-!
Verification of the matching engine of the financial-reconciliation tool
(server module: `normalizeDateValue`, `normalizeDatesInObject`, `datesAreClose`,
`amountsAreClose`, `getRowAmount`, `geminiBatchMatchRow` response handling,
`reconcile`, and the `/reconcile` route guard).

JavaScript runtime values are shallowly embedded as the inductive type `Value`;
JS numbers are modelled as exact rationals (the code never relies on binary
floating-point rounding for the properties below), the host timezone is
modelled as UTC (no DST), and `String(number)` is modelled as exact decimal
rendering.  Fallible JS code (TypeError on property access of null/undefined,
`.split` on a non-string) is modelled with `Except Unit`.
-/

namespace FinRecon

/-- JavaScript runtime values: null/undefined, booleans, numbers (as ℚ),
strings, arrays and plain objects (ordered key/value lists, keys unique the
way JS object literals and `JSON.parse` produce them). -/
inductive Value where
  | vNull : Value
  | vBool : Bool → Value
  | vNum : ℚ → Value
  | vStr : String → Value
  | vArr : List Value → Value
  | vObj : List (String × Value) → Value

/-- A parsed ledger row: ordered column-name/value mapping (`Record<string, any>`). -/
abbrev Row := List (String × Value)

/-- JS truthiness: `!!v`. -/
def truthy : Value → Bool
  | .vNull => false
  | .vBool b => b
  | .vNum q => q ≠ 0
  | .vStr s => s ≠ ""
  | .vArr _ => true
  | .vObj _ => true

/-- JS property read `row[key]` on an object embedded as a `Row`
(missing key gives `undefined`, modelled as `vNull`). -/
def rowGet (row : Row) (k : String) : Value :=
  match row.lookup k with
  | some v => v
  | none => .vNull

/-- Whitespace for JS `String.prototype.trim` (ASCII subset model). -/
def jsWs (c : Char) : Bool :=
  c = ' ' ∨ c = '\t' ∨ c = '\n' ∨ c = '\r' ∨ c = '\x0b' ∨ c = '\x0c'

/-- Drop trailing elements satisfying `p`. -/
def dropTrailing {α : Type} (p : α → Bool) (l : List α) : List α :=
  (l.reverse.dropWhile p).reverse

/-- JS `s.trim()` on the character list. -/
def trimL (l : List Char) : List Char :=
  dropTrailing jsWs (l.dropWhile jsWs)

/-- JS `s.trim()`. -/
def jsTrim (s : String) : String := ⟨trimL s.data⟩

/-- Decimal digit character for a digit value (values ≥ 10 never occur). -/
def digitChar : Nat → Char
  | 0 => '0' | 1 => '1' | 2 => '2' | 3 => '3' | 4 => '4'
  | 5 => '5' | 6 => '6' | 7 => '7' | 8 => '8' | 9 => '9'
  | _ => '*'

/-- Decimal digits, most significant first, with a fuel bound on the digit
count (the fuel chosen by `natDigits` always suffices). -/
def natDigitsAux : Nat → Nat → List Char
  | 0, _ => []
  | fuel + 1, n =>
    if n < 10 then [digitChar n]
    else natDigitsAux fuel (n / 10) ++ [digitChar (n % 10)]

/-- Decimal digits of a natural number, most significant first
(model of JS `String(n)` for naturals). -/
def natDigits (n : Nat) : List Char := natDigitsAux (n + 1) n

/-- Decimal rendering of an integer (model of JS `String(i)`). -/
def intDigits (i : Int) : List Char :=
  if i < 0 then '-' :: natDigits i.natAbs else natDigits i.toNat

/-- Fractional decimal digits of `num/den` (`num < den`), up to `fuel` digits.
JS prints the shortest float round-trip; for the finite decimal fractions the
engine actually meets this exact expansion coincides with it. -/
def fracDigits (num den : Nat) : Nat → List Char
  | 0 => []
  | fuel + 1 =>
    if num = 0 then []
    else digitChar (num * 10 / den) :: fracDigits (num * 10 % den) den fuel

/-- Model of JS `String(q)` for a number. -/
def numToString (q : ℚ) : String :=
  if q.den = 1 then ⟨intDigits q.num⟩
  else
    let sgn : List Char := if q.num < 0 then ['-'] else []
    let a : Nat := q.num.natAbs
    ⟨sgn ++ natDigits (a / q.den) ++ '.' :: fracDigits (a % q.den) q.den 32⟩

mutual

/-- Model of JS `String(v)` / string coercion.  `String(null)` is "null",
`String(undefined)` would be "undefined" (both folded into `vNull`, rendered
"null": the engine only stringifies `null` on the amount path). -/
def jsToString : Value → String
  | .vNull => "null"
  | .vBool b => if b then "true" else "false"
  | .vNum q => numToString q
  | .vStr s => s
  | .vArr l => String.intercalate "," (jsArrElems l)
  | .vObj _ => "[object Object]"

/-- Element strings for `Array.prototype.join`: null/undefined become "". -/
def jsArrElems : List Value → List String
  | [] => []
  | .vNull :: r => "" :: jsArrElems r
  | v :: r => jsToString v :: jsArrElems r

end

/-- ASCII digit test (JS `\d`). -/
def isDig (c : Char) : Bool := 48 ≤ c.toNat ∧ c.toNat ≤ 57

/-- Date separator of the normalizer's regexes: slash or hyphen. -/
def isSep (c : Char) : Bool := c = '/' ∨ c = '-'

/-- Matcher for the anchored regex "1-2 digits, separator, 1-2 digits,
separator, digits" returning the three digit groups; the caller constrains
the year group's length (4 or 2) to recover the two regexes of
`normalizeDateValue`.  A greedy 1-2 digit group followed by a non-digit
separator is equivalent to taking the maximal digit run and requiring its
length in [1,2]. -/
def matchDMY (cs : List Char) : Option (List Char × List Char × List Char) :=
  if 1 ≤ (cs.takeWhile isDig).length ∧ (cs.takeWhile isDig).length ≤ 2 then
    match cs.dropWhile isDig with
    | c1 :: r1' =>
      if isSep c1 then
        if 1 ≤ (r1'.takeWhile isDig).length ∧ (r1'.takeWhile isDig).length ≤ 2 then
          match r1'.dropWhile isDig with
          | c2 :: r2' =>
            if isSep c2 then
              if (r2'.dropWhile isDig).isEmpty then
                some (cs.takeWhile isDig, r1'.takeWhile isDig, r2'.takeWhile isDig)
              else none
            else none
          | [] => none
        else none
      else none
    | [] => none
  else none

/-- `s.padStart(2, '0')` on a character list. -/
def pad2L (l : List Char) : List Char :=
  if 2 ≤ l.length then l
  else if l.length = 1 then '0' :: l
  else ['0', '0']

/-- Numeric value of a decimal digit string (`parseInt(s, 10)` on pure digits). -/
def natOfDigits (l : List Char) : Nat :=
  l.foldl (fun acc c => 10 * acc + (c.toNat - 48)) 0

/-- Gregorian civil date (year, month, day) of a day count since 1970-01-01
(used for `new Date(utc_value * 1000).getFullYear/getMonth/getDate`, host
timezone modelled as UTC). Howard Hinnant's civil-from-days algorithm,
restricted to non-negative day counts as guaranteed by the Excel-serial
guard `40000 < val < 60000`. -/
def civilFromDaysPos (days : Nat) : Nat × Nat × Nat :=
  let z := days + 719468
  let era := z / 146097
  let doe := z % 146097
  let yoe := (doe - doe / 1460 + doe / 36524 - doe / 146096) / 365
  let y0 := yoe + era * 400
  let doy := doe - (365 * yoe + yoe / 4 - yoe / 100)
  let mp := (5 * doy + 2) / 153
  let d := doy - (153 * mp + 2) / 5 + 1
  let m := if mp < 10 then mp + 3 else mp - 9
  (if m ≤ 2 then y0 + 1 else y0, m, d)

/-- The `MM/DD/YYYY` rendering `${mm}/${dd}/${yyyy}` (character-list level). -/
def renderMDY (mm dd yyyy : List Char) : List Char :=
  mm ++ '/' :: (dd ++ '/' :: yyyy)

/-- The string-typed tail of `normalizeDateValue`: trim, then the
`MM/DD/YYYY` regex, then the two-digit-year regex with the 00-49 → 2000s,
50-99 → 1900s window, else pass the trimmed string through. -/
def normalizeDateString (cs : List Char) : List Char :=
  match matchDMY (trimL cs) with
  | some (g1, g2, g3) =>
    if g3.length = 4 then renderMDY (pad2L g1) (pad2L g2) g3
    else if g3.length = 2 then
      renderMDY (pad2L g1) (pad2L g2)
        (natDigits
          (if natOfDigits g3 < 50 then 2000 + natOfDigits g3 else 1900 + natOfDigits g3))
    else trimL cs
  | none => trimL cs

/-- `normalizeDateValue`: nullish → "", Excel serial in (40000, 60000) →
calendar date via days-since-1970 offset 25569, else the trimmed-string
regex reformatting. -/
def normalizeDateValue (v : Value) : String :=
  match v with
  | .vNull => ""
  | .vNum q =>
    if 40000 < q ∧ q < 60000 then
      let utcDays := (⌊q - 25569⌋ : Int).toNat
      let ymd := civilFromDaysPos utcDays
      ⟨renderMDY (pad2L (natDigits ymd.2.1)) (pad2L (natDigits ymd.2.2)) (natDigits ymd.1)⟩
    else ⟨normalizeDateString (numToString q).data⟩
  | v => ⟨normalizeDateString (jsToString v).data⟩

/-- `key.trim().toLowerCase()` (ASCII lower-casing model). -/
def jsTrimLower (k : String) : String :=
  ⟨(trimL k.data).map fun c =>
    if 'A' ≤ c ∧ c ≤ 'Z' then Char.ofNat (c.toNat + 32) else c⟩

mutual

/-- One entry of `normalizeDatesInObject`: nested non-array objects are
recursed into, keys whose trimmed lower-cased name is "date" get
`normalizeDateValue`, everything else is copied. -/
def normEntry (k : String) (v : Value) : Value :=
  match v with
  | .vObj fields => .vObj (normFields fields)
  | v => if jsTrimLower k = "date" then .vStr (normalizeDateValue v) else v

/-- `normalizeDatesInObject` over the ordered field list. -/
def normFields : List (String × Value) → List (String × Value)
  | [] => []
  | (k, v) :: rest => (k, normEntry k v) :: normFields rest

end

/-- `normalizeDatesInObject(obj)`. -/
def normalizeDatesInObject (row : Row) : Row := normFields row

mutual

/-- Whether `normEntry` can rewrite anything under this entry: a date-named
key with a non-object value, or a nested object containing one. -/
def entryTouched (k : String) (v : Value) : Bool :=
  match v with
  | .vObj fs => fieldsTouched fs
  | _ => jsTrimLower k = "date"

/-- Whether any entry of the field list is subject to date rewriting. -/
def fieldsTouched : List (String × Value) → Bool
  | [] => false
  | (k, v) :: rest => entryTouched k v || fieldsTouched rest

end

mutual

/-- Structural boolean equality of embedded JS values. -/
def vbeq : Value → Value → Bool
  | .vNull, .vNull => true
  | .vBool a, .vBool b => a == b
  | .vNum a, .vNum b => a == b
  | .vStr a, .vStr b => a == b
  | .vArr a, .vArr b => vbeqList a b
  | .vObj a, .vObj b => vbeqFields a b
  | _, _ => false

def vbeqList : List Value → List Value → Bool
  | [], [] => true
  | a :: as, b :: bs => vbeq a b && vbeqList as bs
  | _, _ => false

def vbeqFields : List (String × Value) → List (String × Value) → Bool
  | [], [] => true
  | (k1, v1) :: as, (k2, v2) :: bs => k1 == k2 && vbeq v1 v2 && vbeqFields as bs
  | _, _ => false

end

theorem vbeq_iff_eq : ∀ a b : Value, vbeq a b = true ↔ a = b := by
  suffices h : ∀ n, (∀ a b : Value, sizeOf a ≤ n → (vbeq a b = true ↔ a = b)) ∧
      (∀ as bs : List Value, sizeOf as ≤ n → (vbeqList as bs = true ↔ as = bs)) ∧
      (∀ as bs : List (String × Value), sizeOf as ≤ n →
        (vbeqFields as bs = true ↔ as = bs)) by
    intro a b; exact (h (sizeOf a)).1 a b le_rfl
  intro n
  induction n with
  | zero =>
    refine ⟨fun a _ ha => ?_, fun as _ ha => ?_, fun as _ ha => ?_⟩
    · cases a <;> (simp at ha; try omega)
    · cases as <;> (simp at ha; try omega)
    · cases as <;> (simp at ha; try omega)
  | succ n ih =>
    refine ⟨fun a b ha => ?_, fun as bs ha => ?_, fun as bs ha => ?_⟩
    · cases a with
      | vNull => cases b <;> simp [vbeq]
      | vBool x => cases b <;> simp [vbeq]
      | vNum x => cases b <;> simp [vbeq]
      | vStr x => cases b <;> simp [vbeq]
      | vArr l1 =>
        cases b with
        | vArr l2 =>
          have hh := ih.2.1 l1 l2 (by simp at ha; omega)
          simp [vbeq, hh]
        | vNull => simp [vbeq]
        | vBool y => simp [vbeq]
        | vNum y => simp [vbeq]
        | vStr y => simp [vbeq]
        | vObj l2 => simp [vbeq]
      | vObj l1 =>
        cases b with
        | vObj l2 =>
          have hh := ih.2.2 l1 l2 (by simp at ha; omega)
          simp [vbeq, hh]
        | vNull => simp [vbeq]
        | vBool y => simp [vbeq]
        | vNum y => simp [vbeq]
        | vStr y => simp [vbeq]
        | vArr l2 => simp [vbeq]
    · cases as with
      | nil => cases bs <;> simp [vbeqList]
      | cons a as =>
        cases bs with
        | nil => simp [vbeqList]
        | cons b bs =>
          have h1 := ih.1 a b (by simp at ha; omega)
          have h2 := ih.2.1 as bs (by simp at ha; omega)
          simp [vbeqList, h1, h2]
    · cases as with
      | nil => cases bs <;> simp [vbeqFields]
      | cons a as =>
        cases bs with
        | nil => simp [vbeqFields]
        | cons b bs =>
          obtain ⟨k1, v1⟩ := a; obtain ⟨k2, v2⟩ := b
          have h1 := ih.1 v1 v2 (by simp at ha; omega)
          have h2 := ih.2.2 as bs (by simp at ha; omega)
          simp only [vbeqFields, Bool.and_eq_true, beq_iff_eq, List.cons.injEq,
            Prod.mk.injEq, h1, h2]
          try tauto

instance : DecidableEq Value := fun a b => decidable_of_iff _ (vbeq_iff_eq a b)

/-- JS strict equality `v === n` against a number literal (on numbers it is
numeric equality; a value of any other type is never strictly equal to a
number). -/
def strictEqNum (v : Value) (q : ℚ) : Bool :=
  match v with
  | .vNum p => p = q
  | _ => false

/-- `Number(s)` for a string (decimal model: optional sign, digits with an
optional fraction and exponent, surrounded by whitespace; the empty/blank
string is 0; anything else is NaN, modelled as `none`.  Exotic literals
(hex, "Infinity") are outside the dates the engine feeds this). -/
def jsNumber (s : String) : Option ℚ :=
  let t := trimL s.data
  if t.isEmpty then some 0
  else
    let (sgn, t1) : ℚ × List Char :=
      match t with
      | '-' :: r => (-1, r)
      | '+' :: r => (1, r)
      | _ => (1, t)
    let ip := t1.takeWhile isDig
    let r1 := t1.dropWhile isDig
    let (fp, r2) : List Char × List Char :=
      match r1 with
      | '.' :: r => (r.takeWhile isDig, r.dropWhile isDig)
      | _ => ([], r1)
    if ip.isEmpty ∧ fp.isEmpty then none
    else
      let mant : ℚ := (natOfDigits ip : ℚ) + (natOfDigits fp : ℚ) / ((10 : ℚ) ^ fp.length)
      match r2 with
      | [] => some (sgn * mant)
      | e :: r3 =>
        if e = 'e' ∨ e = 'E' then
          let (esgn, r4) : Bool × List Char :=
            match r3 with
            | '-' :: r => (true, r)
            | '+' :: r => (false, r)
            | _ => (false, r3)
          let ed := r4.takeWhile isDig
          if ed.isEmpty ∨ ¬(r4.dropWhile isDig).isEmpty then none
          else
            let ex := natOfDigits ed
            some (sgn * mant * (if esgn then 1 / (10 : ℚ) ^ ex else (10 : ℚ) ^ ex))
        else none

/-- `parseFloat(s)` restricted to the alphabet the engine produces: the
argument has already been stripped to digits, dots and hyphens, so this
parses an optional leading minus then the longest "digits, optionally a dot
and more digits" prefix; no digit at all gives NaN (`none`). -/
def parseFloatStripped (s : String) : Option ℚ :=
  let (sgn, t) : ℚ × List Char :=
    match s.data with
    | '-' :: r => (-1, r)
    | _ => (1, s.data)
  let ip := t.takeWhile isDig
  let r1 := t.dropWhile isDig
  let fp : List Char :=
    match r1 with
    | '.' :: r => r.takeWhile isDig
    | _ => []
  if ip.isEmpty ∧ fp.isEmpty then none
  else some (sgn * ((natOfDigits ip : ℚ) + (natOfDigits fp : ℚ) / ((10 : ℚ) ^ fp.length)))

/-- The replace of non-numeric formatting characters: keep only digits, dots
and hyphens (the regex replacing every other character by the empty string). -/
def stripNonNum (s : String) : String :=
  ⟨s.data.filter fun c => isDig c ∨ c = '.' ∨ c = '-'⟩

/-- Truncation toward zero (JS ToIntegerOrInfinity on a finite number). -/
def ratTrunc (q : ℚ) : Int :=
  if 0 ≤ q then ⌊q⌋ else -⌊-q⌋

/-- Day count since 1970-01-01 of the first day of month `m` (1-12) in year
`y` (Howard Hinnant's days-from-civil, day fixed to 1). -/
def daysFromCivilFirst (y : Int) (m : Nat) : Int :=
  let y' := if m ≤ 2 then y - 1 else y
  let era := Int.fdiv y' 400
  let yoe := (y' - era * 400).toNat
  let mp := if 2 < m then m - 3 else m + 9
  let doy := (153 * mp + 2) / 5
  let doe := yoe * 365 + yoe / 4 - yoe / 100 + doy
  era * 146097 + (doe : Int) - 719468

/-- `new Date(y, m, d).getTime() / 86400000` in a DST-free (UTC) host:
arguments are truncated toward zero, a year in [0,99] gets 1900 added, the
month is normalized into the year by floored division, and day overflow
carries into the day count. -/
def makeDay (y m d : ℚ) : Int :=
  let yi := ratTrunc y
  let mi := ratTrunc m
  let di := ratTrunc d
  let yr := if 0 ≤ yi ∧ yi ≤ 99 then yi + 1900 else yi
  let ym := yr + Int.fdiv mi 12
  let mn := (Int.fmod mi 12).toNat
  daysFromCivilFirst ym (mn + 1) + di - 1

/-- The epoch day encoded by one side of `datesAreClose`: split on slashes,
convert the first three pieces with `Number`, build the local date
`new Date(y, m - 1, d)`; a missing piece or NaN yields an invalid date
(`none`). -/
def dateDayOf (s : String) : Option Int := do
  let pieces := s.splitOn "/"
  let m ← (pieces.get? 0).bind jsNumber
  let d ← (pieces.get? 1).bind jsNumber
  let y ← (pieces.get? 2).bind jsNumber
  pure (makeDay y (m - 1) d)

/-- `datesAreClose(dateA, dateB, days)`: compare the two `getTime()` values
in milliseconds; any NaN comparison is false. -/
def datesAreClose (dateA dateB : String) (days : ℚ) : Bool :=
  match dateDayOf dateA, dateDayOf dateB with
  | some x, some y => |(x : ℚ) * 86400000 - (y : ℚ) * 86400000| ≤ days * 86400 * 1000
  | _, _ => false

/-- `datesAreClose` as called from `reconcile`: both arguments are arbitrary
runtime values and `.split` throws a TypeError on a non-string. -/
def datesAreCloseV (dateA dateB : Value) (days : ℚ) : Except Unit Bool :=
  match dateA, dateB with
  | .vStr a, .vStr b => pure (datesAreClose a b days)
  | _, _ => throw ()

/-- `amountsAreClose(a, b, tol)`: stringify, strip formatting characters,
parse as a signed decimal; a NaN on either side makes the comparison false
(fails closed). -/
def amountsAreClose (a b : Value) (tol : ℚ) : Bool :=
  match parseFloatStripped (stripNonNum (jsToString a)),
      parseFloatStripped (stripNonNum (jsToString b)) with
  | some x, some y => |x - y| ≤ tol
  | _, _ => false

/-- `getRowAmount(row)`: first non-blank of Amount, Credit Amount,
Debit Amount (truthy and with non-empty trimmed string form), else null. -/
def getRowAmount (row : Row) : Value :=
  if truthy (rowGet row "Amount") ∧ jsTrim (jsToString (rowGet row "Amount")) ≠ "" then
    rowGet row "Amount"
  else if truthy (rowGet row "Credit Amount") ∧
      jsTrim (jsToString (rowGet row "Credit Amount")) ≠ "" then
    rowGet row "Credit Amount"
  else if truthy (rowGet row "Debit Amount") ∧
      jsTrim (jsToString (rowGet row "Debit Amount")) ≠ "" then
    rowGet row "Debit Amount"
  else .vNull

/-- `parseFloat(q.toFixed(2))`: round to two decimal places, ties toward the
larger value (the exact decimal reading of the spec of `Number.prototype.toFixed`). -/
def round2 (q : ℚ) : ℚ :=
  (⌊q * 100 + 1 / 2⌋ : ℚ) / 100

/-- JSON insignificant whitespace. -/
def jsonWsChar (c : Char) : Bool := c = ' ' ∨ c = '\t' ∨ c = '\n' ∨ c = '\r'

/-- Hexadecimal digit value. -/
def hexVal (c : Char) : Option Nat :=
  if isDig c then some (c.toNat - 48)
  else if 'a' ≤ c ∧ c ≤ 'f' then some (c.toNat - 87)
  else if 'A' ≤ c ∧ c ≤ 'F' then some (c.toNat - 55)
  else none

/-- JSON string-body scanner (after the opening quote): returns the decoded
characters and the remainder past the closing quote.  Escapes per ECMA-404;
surrogate pairing of two adjacent \u escapes is not re-combined. -/
def parseJStrAux (acc : List Char) : List Char → Option (List Char × List Char)
  | [] => none
  | '"' :: r => some (acc.reverse, r)
  | '\\' :: '"' :: r => parseJStrAux ('"' :: acc) r
  | '\\' :: '\\' :: r => parseJStrAux ('\\' :: acc) r
  | '\\' :: '/' :: r => parseJStrAux ('/' :: acc) r
  | '\\' :: 'b' :: r => parseJStrAux ('\x08' :: acc) r
  | '\\' :: 'f' :: r => parseJStrAux ('\x0c' :: acc) r
  | '\\' :: 'n' :: r => parseJStrAux ('\n' :: acc) r
  | '\\' :: 'r' :: r => parseJStrAux ('\r' :: acc) r
  | '\\' :: 't' :: r => parseJStrAux ('\t' :: acc) r
  | '\\' :: 'u' :: h1 :: h2 :: h3 :: h4 :: r =>
    match hexVal h1, hexVal h2, hexVal h3, hexVal h4 with
    | some a, some b, some c, some d =>
      parseJStrAux (Char.ofNat (((a * 16 + b) * 16 + c) * 16 + d) :: acc) r
    | _, _, _, _ => none
  | '\\' :: _ => none
  | c :: r => if c.toNat < 32 then none else parseJStrAux (c :: acc) r

/-- Optional JSON fraction part: value contributed and remainder. -/
def jnumFrac : List Char → Option (ℚ × List Char)
  | '.' :: r =>
    let fd := r.takeWhile isDig
    if fd.isEmpty then none
    else some ((natOfDigits fd : ℚ) / (10 : ℚ) ^ fd.length, r.dropWhile isDig)
  | cs => some (0, cs)

/-- Optional JSON exponent part: multiplier contributed and remainder. -/
def jnumExp : List Char → Option (ℚ × List Char)
  | c :: r =>
    if c = 'e' ∨ c = 'E' then
      let (esgn, r2) : Bool × List Char :=
        match r with
        | '-' :: r3 => (true, r3)
        | '+' :: r3 => (false, r3)
        | _ => (false, r)
      let ed := r2.takeWhile isDig
      if ed.isEmpty then none
      else
        some ((if esgn then 1 / (10 : ℚ) ^ natOfDigits ed else (10 : ℚ) ^ natOfDigits ed),
          r2.dropWhile isDig)
    else some (1, c :: r)
  | [] => some (1, [])

/-- JSON number token: optional minus, integer part without leading zeros,
optional fraction and exponent. -/
def parseJNum (cs : List Char) : Option (Value × List Char) := do
  let (neg, c1) : Bool × List Char :=
    match cs with
    | '-' :: r => (true, r)
    | _ => (false, cs)
  match c1 with
  | '0' :: r =>
    let (f, r2) ← jnumFrac r
    let (m, r3) ← jnumExp r2
    pure (.vNum ((if neg then -1 else 1) * f * m), r3)
  | c :: _ =>
    if isDig c then
      let ds := c1.takeWhile isDig
      let (f, r2) ← jnumFrac (c1.dropWhile isDig)
      let (m, r3) ← jnumExp r2
      pure (.vNum ((if neg then -1 else 1) * ((natOfDigits ds : ℚ) + f) * m), r3)
    else none
  | [] => none

/-- Object member insertion with JSON.parse duplicate-key semantics: a repeated
key keeps its first position but takes the last value. -/
def objUpsert (fields : List (String × Value)) (k : String) (v : Value) :
    List (String × Value) :=
  if fields.any (·.1 = k) then
    fields.map fun p => if p.1 = k then (k, v) else p
  else fields ++ [(k, v)]

mutual

/-- Fuel-indexed JSON value parser (`JSON.parse` model); the fuel is an upper
bound on recursion depth, chosen large enough by `jsonParse`. -/
def parseJVal : Nat → List Char → Option (Value × List Char)
  | 0, _ => none
  | fuel + 1, cs0 =>
    let cs := cs0.dropWhile jsonWsChar
    match cs with
    | 'n' :: 'u' :: 'l' :: 'l' :: r => some (.vNull, r)
    | 't' :: 'r' :: 'u' :: 'e' :: r => some (.vBool true, r)
    | 'f' :: 'a' :: 'l' :: 's' :: 'e' :: r => some (.vBool false, r)
    | '"' :: r => (parseJStrAux [] r).map fun p => (.vStr ⟨p.1⟩, p.2)
    | '[' :: r =>
      let r1 := r.dropWhile jsonWsChar
      match r1 with
      | ']' :: r2 => some (.vArr [], r2)
      | _ => (parseJElems fuel r1).map fun p => (.vArr p.1, p.2)
    | '{' :: r =>
      let r1 := r.dropWhile jsonWsChar
      match r1 with
      | '}' :: r2 => some (.vObj [], r2)
      | _ => (parseJMembers fuel [] r1).map fun p => (.vObj p.1, p.2)
    | _ => parseJNum cs

/-- Comma-separated array elements up to the closing bracket. -/
def parseJElems : Nat → List Char → Option (List Value × List Char)
  | 0, _ => none
  | fuel + 1, cs => do
    let (v, r) ← parseJVal fuel cs
    let r1 := r.dropWhile jsonWsChar
    match r1 with
    | ',' :: r2 =>
      let (l, r3) ← parseJElems fuel r2
      pure (v :: l, r3)
    | ']' :: r2 => pure ([v], r2)
    | _ => none

/-- Comma-separated object members up to the closing brace. -/
def parseJMembers : Nat → List (String × Value) → List Char →
    Option (List (String × Value) × List Char)
  | 0, _, _ => none
  | fuel + 1, acc, cs0 => do
    let cs := cs0.dropWhile jsonWsChar
    match cs with
    | '"' :: r => do
      let (k, r1) ← parseJStrAux [] r
      let r2 := r1.dropWhile jsonWsChar
      match r2 with
      | ':' :: r3 => do
        let (v, r4) ← parseJVal fuel r3
        let acc' := objUpsert acc ⟨k⟩ v
        let r5 := r4.dropWhile jsonWsChar
        match r5 with
        | ',' :: r6 => parseJMembers fuel acc' r6
        | '}' :: r6 => pure (acc', r6)
        | _ => none
      | _ => none
    | _ => none

end

/-- `JSON.parse(s)`: parse one value, allow only trailing whitespace;
`none` models the thrown SyntaxError. -/
def jsonParse (s : String) : Option Value := do
  let (v, r) ← parseJVal (2 * s.length + 2) s.data
  if (r.dropWhile jsonWsChar).isEmpty then pure v else none

/-- `content.match` with the lazy bracket regex: the substring from the first
opening bracket through the first closing bracket after it; no match when
there is no such pair. -/
def extractBracket (s : String) : Option String :=
  match s.data.dropWhile (· ≠ '[') with
  | '[' :: inner =>
    let body := inner.takeWhile (· ≠ ']')
    if body.length = inner.length then none
    else some ⟨'[' :: (body ++ [']'])⟩
  | _ => none

/-- One oracle verdict as produced by the batch adapter's `arr.map`. -/
structure Verdict where
  file_b_index : Value
  matched : Bool
  confidence : ℚ
  reason : Value
deriving DecidableEq

/-- Property read `o[k]` for a non-null base (null/undefined bases throw and
are handled by the caller). -/
def objGet (o : Value) (k : String) : Value :=
  match o with
  | .vObj fs => rowGet fs k
  | _ => .vNull

/-- One element of `arr.map(obj => ...)`: `none` models the TypeError thrown
by property access on a null element.  `match` is coerced with `!!`,
a non-number confidence becomes 0 (no clamping into [0,1] happens), a falsy
reason becomes the placeholder. -/
def verdictOfObj (o : Value) : Option Verdict :=
  match o with
  | .vNull => none
  | o =>
    some { file_b_index := objGet o "file_b_index"
           matched := truthy (objGet o "match")
           confidence :=
             match objGet o "confidence" with
             | .vNum q => q
             | _ => 0
           reason :=
             let r := objGet o "reason"
             if truthy r then r else .vStr "No reason provided" }

/-- `arr.map(...)` over the parsed value: a non-array has no `.map` and
throws (`none`), as does any null element. -/
def toVerdicts (v : Value) : Option (List Verdict) :=
  match v with
  | .vArr l => l.mapM verdictOfObj
  | _ => none

/-- The parse attempt of `geminiBatchMatchRow`: the first bracket-delimited
substring, if one exists, is parsed — otherwise the full response text —
and the result is mapped to verdicts; `none` is an exception reaching the
catch block. -/
def parsedVerdicts (content : String) : Option (List Verdict) :=
  (match extractBracket content with
   | some sub => jsonParse sub
   | none => jsonParse content).bind toVerdicts

/-- Response handling of `geminiBatchMatchRow`: any exception in parsing or
mapping falls back to the empty verdict list. -/
def geminiBatchMatchRowPure (content : String) : List Verdict :=
  (parsedVerdicts content).getD []

/-- Written from the spec's claimed order of preference, for comparison with
`parsedVerdicts`: first parse the full response text as JSON; only if that
fails, extract the first bracket-delimited substring and parse it; both
failing (or the mapping throwing) yields the empty verdict list. -/
def specOrderVerdicts (content : String) : List Verdict :=
  (((jsonParse content).orElse fun _ => (extractBracket content).bind jsonParse).bind
    toVerdicts).getD []

/-- Canonical decimal numeral of a natural number. -/
def natRepr (n : Nat) : String := ⟨natDigits n⟩

/-- JS array indexing `rs[v]` with an arbitrary runtime value: the value is
coerced to a property key string; only the canonical numeral of a position
inside the array hits an element, anything else reads `undefined`. -/
def jsIndexRows (rs : List Row) (v : Value) : Value :=
  match (List.range rs.length).find? fun n => natRepr n = jsToString v with
  | some n => .vObj (rs.getD n [])
  | none => .vNull

/-- One comparison of the best-match scan of `reconcile`: take the verdict
when its confidence strictly exceeds the best so far and its `match` flag is
true. -/
def sbStep (acc : Value × ℚ × Value) (v : Verdict) : Value × ℚ × Value :=
  if acc.2.1 < v.confidence ∧ v.matched then (v.file_b_index, v.confidence, v.reason)
  else acc

/-- The best-match scan of `reconcile`: fold over the batch results keeping
the verdict of strictly greatest confidence among those with a true `match`
flag, starting from the sentinel (`-1`, 0, empty reason). -/
def selectBest (l : List Verdict) : Value × ℚ × Value :=
  l.foldl sbStep (.vNum (-1), 0, .vStr "")

/-- Maximum confidence among `match == true` verdicts, folded from base `b`
(spec-side notion used to characterize the scan). -/
def maxMatchedFrom (b : ℚ) (l : List Verdict) : ℚ :=
  l.foldl (fun m v => if v.matched then max m v.confidence else m) b

/-- Maximum confidence among `match == true` verdicts of a batch (0 when no
verdict is flagged matched). -/
def maxMatchedConf (l : List Verdict) : ℚ := maxMatchedFrom 0 l

/-- The commit decision of `reconcile`: commit the scan result when the best
index is strictly unequal to the number -1 and the best confidence reaches
the threshold. -/
def commitResult (l : List Verdict) (θ : ℚ) : Option (Value × ℚ × Value) :=
  if (selectBest l).1 ≠ .vNum (-1) ∧ θ ≤ (selectBest l).2.1 then some (selectBest l)
  else none

/-- `Array.prototype.filter` with a predicate that can throw, evaluated left
to right. -/
def filterE {α : Type} (p : α → Except Unit Bool) : List α → Except Unit (List α)
  | [] => pure []
  | x :: xs => do
    let b ← p x
    let r ← filterE p xs
    pure (if b then x :: r else r)

/-- The candidate filter of `reconcile` for one left row: keep each right row
(paired with its index) that is not already used, has a truthy `Date`, is
within 7 days and within amount tolerance 500; the conjuncts short-circuit
in source order, so a TypeError in `datesAreClose` only fires when reached. -/
def candidatesFor (normB : List Row) (usedB : List Value) (dateA amountA : Value) :
    Except Unit (List (Row × Nat)) :=
  filterE
    (fun bi =>
      if Value.vNum (bi.2 : ℚ) ∈ usedB then pure false
      else if ¬ truthy (rowGet bi.1 "Date") then pure false
      else do
        let cl ← datesAreCloseV dateA (rowGet bi.1 "Date") 7
        pure (cl && amountsAreClose amountA (getRowAmount bi.1) 500))
    (normB.enum.map fun p => (p.2, p.1))

/-- One committed match entry (`matches.push` payload; the constant
`type: '1-to-1'` field is omitted). -/
structure MatchEntry where
  file_a_entry : Value
  file_b_entry : Value
  confidence_score : ℚ
  match_reason : Value
deriving DecidableEq

/-- One audit entry (`llmCandidates.push` payload). -/
structure CandEntry where
  file_a_entry : Value
  file_b_entry : Value
  confidence_score : ℚ
  match_reason : Value
  file_a_index : Nat
  file_b_index : Value
deriving DecidableEq

/-- The mutable state of the `reconcile` loop, plus two ghost components
recording the committed (leftIndex, rightIndex) pairs and, per oracle call,
the left row index with the offered candidate indices.  The ghost lists are
determined by the loop and carry no behavior. -/
structure RState where
  usedA : List Nat
  usedB : List Value
  matches_ : List MatchEntry
  llm : List CandEntry
  assignments : List (Nat × Value)
  calls : List (Nat × List Nat)
deriving DecidableEq

def initState : RState := ⟨[], [], [], [], [], []⟩

/-- One audit entry for a verdict of left row `i` (`llmCandidates.push`). -/
def mkCandEntry (normA normB : List Row) (i : Nat) (v : Verdict) : CandEntry :=
  { file_a_entry := .vObj (normA.getD i [])
    file_b_entry := jsIndexRows normB v.file_b_index
    confidence_score := round2 v.confidence
    match_reason := v.reason
    file_a_index := i
    file_b_index := v.file_b_index }

/-- One committed match entry for left row `i` (`matches.push`). -/
def mkMatchEntry (normA normB : List Row) (i : Nat) (sel : Value × ℚ × Value) :
    MatchEntry :=
  { file_a_entry := .vObj (normA.getD i [])
    file_b_entry := jsIndexRows normB sel.1
    confidence_score := round2 sel.2.1
    match_reason := sel.2.2 }

/-- One iteration of the `reconcile` loop for left index `i`, with the batch
oracle results supplied by `f` (one verdict list per left row, exactly how
the single call per row behaves). -/
def rowStep (f : Nat → List Verdict) (θ : ℚ) (normA normB : List Row)
    (s : RState) (i : Nat) : Except Unit RState :=
  if i ∈ s.usedA then pure s
  else do
    let cands ← candidatesFor normB s.usedB (rowGet (normA.getD i []) "Date")
      (getRowAmount (normA.getD i []))
    if cands.isEmpty then pure s
    else
      match commitResult (f i) θ with
      | some sel =>
        pure
          { s with
            llm := s.llm ++ (f i).map (mkCandEntry normA normB i)
            calls := s.calls ++ [(i, cands.map (·.2))]
            matches_ := s.matches_ ++ [mkMatchEntry normA normB i sel]
            usedA := s.usedA ++ [i]
            usedB := s.usedB ++ [sel.1]
            assignments := s.assignments ++ [(i, sel.1)] }
      | none =>
        pure
          { s with
            llm := s.llm ++ (f i).map (mkCandEntry normA normB i)
            calls := s.calls ++ [(i, cands.map (·.2))] }

/-- The result object of `reconcile` (plus the two ghost lists).  The
`!unmatchedA.includes(...)` dedup of the source compares object references
and `map(normalizeDatesInObject)` allocates a fresh object per row, so the
check never removes anything: every unused row is listed. -/
structure ReconcileResult where
  matches_ : List MatchEntry
  unmatched_file_a_entries : List Row
  unmatched_file_b_entries : List Row
  llm_candidates : List CandEntry
  assignments : List (Nat × Value)
  calls : List (Nat × List Nat)
deriving DecidableEq

/-- `reconcile(dataA, dataB)` with the oracle's parsed verdict lists supplied
by `f` and the confidence threshold `θ`; `.error` models an uncaught
TypeError aborting the call. -/
def reconcileWith (f : Nat → List Verdict) (θ : ℚ) (dataA dataB : List Row) :
    Except Unit ReconcileResult :=
  (List.range (dataA.map normalizeDatesInObject).length).foldlM
      (rowStep f θ (dataA.map normalizeDatesInObject) (dataB.map normalizeDatesInObject))
      initState |>.map fun s =>
    { matches_ := s.matches_
      unmatched_file_a_entries :=
        ((dataA.map normalizeDatesInObject).enum.filter fun p =>
          decide (p.1 ∉ s.usedA)).map (·.2)
      unmatched_file_b_entries :=
        ((dataB.map normalizeDatesInObject).enum.filter fun p =>
          decide (Value.vNum (p.1 : ℚ) ∉ s.usedB)).map (·.2)
      llm_candidates := s.llm
      assignments := s.assignments
      calls := s.calls }

/-- Default `LLM_MATCH_THRESHOLD`. -/
def LLM_MATCH_THRESHOLD : ℚ := 85 / 100

/-- `reconcile` with the oracle modelled as a map from the left row index to
the raw response text of that row's single batch call. -/
def reconcileOracle (oracle : Nat → String) (θ : ℚ) (dataA dataB : List Row) :
    Except Unit ReconcileResult :=
  reconcileWith (fun i => geminiBatchMatchRowPure (oracle i)) θ dataA dataB

/-- Responses of the `/reconcile` route (after upload and file parsing, which
are upstream of the engine). -/
inductive HandlerResponse where
  | badRequest (msg : String)
  | serverError
  | okJson (r : ReconcileResult)
deriving DecidableEq

/-- The `/reconcile` route body after file parsing: the row-count guard runs
before `reconcile`; an exception inside `reconcile` becomes a 500 response. -/
def handleReconcile (oracle : Nat → String) (θ : ℚ) (dataA dataB : List Row) :
    HandlerResponse :=
  if 15 < dataA.length ∨ 15 < dataB.length then
    .badRequest "Too many rows for Gemini free tier. Please upload smaller files."
  else
    match reconcileOracle oracle θ dataA dataB with
    | .ok r => .okJson r
    | .error _ => .serverError

/-- Whether a route response is the JSON result of a completed reconcile. -/
def isAccepted : HandlerResponse → Bool
  | .okJson _ => true
  | _ => false

/-- Assignments of a reconcile outcome (empty on an aborted run). -/
def resultAssignments : Except Unit ReconcileResult → List (Nat × Value)
  | .ok r => r.assignments
  | .error _ => []

/-- Calls ghost of a reconcile outcome (empty on an aborted run). -/
def resultCalls : Except Unit ReconcileResult → List (Nat × List Nat)
  | .ok r => r.calls
  | .error _ => []

/-- Audit entries of a reconcile outcome (empty on an aborted run). -/
def resultLlm : Except Unit ReconcileResult → List CandEntry
  | .ok r => r.llm_candidates
  | .error _ => []

/-- A blank filler row used in concrete scenarios. -/
def fillerRow : Row := [("x", Value.vNull)]

/-- C8 counterexample input: sixteen rows against zero rows. -/
def bigA : List Row := List.replicate 16 fillerRow

/-- C8 counterexample input: eight rows against eight rows. -/
def medA : List Row := List.replicate 8 fillerRow

/-- Committed matches of a reconcile outcome (empty on an aborted run). -/
def resultMatches : Except Unit ReconcileResult → List MatchEntry
  | .ok r => r.matches_
  | .error _ => []

/-- A concrete ledger row used in scenarios. -/
def sampleRow : Row := [("Date", .vStr "01/05/2024"), ("Amount", .vStr "100")]

/-- A concrete oracle always answering with one verdict for right index 0,
matched, confidence 0.9. -/
def constOracle0 : Nat → String := fun _ =>
  "[\x7b\"file_b_index\": 0, \"match\": true, \"confidence\": 0.9, \"reason\": \"ok\"\x7d]"

/-- A throwaway audit entry used as a `headD` default in examples. -/
def anyCandEntry : CandEntry := ⟨.vNull, .vNull, 0, .vNull, 0, .vNull⟩

/-!  Theorems.  -/

/-- C8 counterexample: the guard is per file, not on the combined row count.
Sixteen rows against zero (combined 16) is rejected, while eight against
eight (also combined 16) is processed to completion — so no bound `N` on the
combined count explains the accept/reject behavior claimed. -/
theorem guard_not_combined_count :
    isAccepted (handleReconcile (fun _ => "") LLM_MATCH_THRESHOLD bigA []) = false ∧
    isAccepted (handleReconcile (fun _ => "") LLM_MATCH_THRESHOLD medA medA) = true ∧
    bigA.length + ([] : List Row).length = medA.length + medA.length := by
  refine ⟨by with_unfolding_all decide, by with_unfolding_all decide, by decide⟩

/-- C8 amended: the request is rejected with the user-facing 400 error, for
every oracle and threshold (hence before any oracle call and with no
reconciliation work done), exactly when one of the two files has more than
15 rows; otherwise the reconcile engine runs. -/
theorem guard_per_file_iff (oracle : Nat → String) (θ : ℚ) (dataA dataB : List Row) :
    handleReconcile oracle θ dataA dataB =
      HandlerResponse.badRequest
        "Too many rows for Gemini free tier. Please upload smaller files." ↔
      (15 < dataA.length ∨ 15 < dataB.length) := by
  unfold handleReconcile
  split
  · simp_all
  · split <;> simp_all

/-- C6 counterexample: a response that is valid JSON as a whole (an array of
two arrays) yields no verdicts, because the bracket-extraction regex runs
first, grabs the lazily-matched unbalanced fragment, and its parse failure
is never repaired by parsing the full text — while the order of preference
stated in the claim would yield two verdicts. -/
theorem parse_order_counterexample :
    geminiBatchMatchRowPure "[[1],[2]]" = [] ∧
    (jsonParse "[[1],[2]]").isSome = true ∧
    specOrderVerdicts "[[1],[2]]" ≠ [] := by
  refine ⟨by with_unfolding_all decide, by with_unfolding_all decide,
    by with_unfolding_all decide⟩

/-- C6 amended: the adapter's order of preference is reversed from the
claim.  Whenever the response contains a bracket-delimited fragment, only
that fragment is parsed (and its failure falls straight to the empty
verdict list, never retrying the full text); the full response text is
parsed as JSON only when no bracket fragment exists. -/
theorem parse_order_bracket_first (c sub : String) :
    (extractBracket c = some sub →
      geminiBatchMatchRowPure c = ((jsonParse sub).bind toVerdicts).getD []) ∧
    (extractBracket c = none →
      geminiBatchMatchRowPure c = ((jsonParse c).bind toVerdicts).getD []) ∧
    (extractBracket c = some sub → jsonParse sub = none →
      geminiBatchMatchRowPure c = []) := by
  refine ⟨fun h => ?_, fun h => ?_, fun h h2 => ?_⟩ <;>
    simp [geminiBatchMatchRowPure, parsedVerdicts, h]
  simp [h2]

/-- C6 amended, concrete instance: on the counterexample response the
bracket fragment exists, fails to parse, and the adapter returns the empty
verdict list. -/
theorem parse_order_bracket_first_example :
    geminiBatchMatchRowPure "[[1],[2]]" = [] :=
  (parse_order_bracket_first "[[1],[2]]" "[[1]").2.2 (by with_unfolding_all decide)
    (by with_unfolding_all decide)

/-- C7 counterexample: a JSON confidence of 1.5 is passed through unclamped
(the claim says values outside [0,1] are clamped). -/
theorem confidence_not_clamped :
    (geminiBatchMatchRowPure
        "[\x7b\"file_b_index\": 0, \"match\": true, \"confidence\": 1.5, \"reason\": \"r\"\x7d]").map
        (fun v => v.confidence) = [3 / 2] ∧
    ¬ ((3 : ℚ) / 2 ≤ 1) := by
  refine ⟨by with_unfolding_all decide, by norm_num⟩

/-- C7 amended: a parsed verdict keeps the oracle's confidence exactly when
the JSON field is a number (with no clamping into [0,1]) and gets 0
otherwise; a missing or otherwise falsy reason is replaced by the fixed
placeholder, so the recorded reason is always truthy. -/
theorem verdict_fields (o : Value) (v : Verdict) (h : verdictOfObj o = some v) :
    ((∃ q : ℚ, objGet o "confidence" = .vNum q ∧ v.confidence = q) ∨
      ((∀ q : ℚ, objGet o "confidence" ≠ .vNum q) ∧ v.confidence = 0)) ∧
    truthy v.reason = true ∧
    (truthy (objGet o "reason") = false → v.reason = .vStr "No reason provided") := by
  have ho : o ≠ .vNull := by
    intro hn; subst hn; simp [verdictOfObj] at h
  have hv : v = { file_b_index := objGet o "file_b_index"
                  matched := truthy (objGet o "match")
                  confidence :=
                    match objGet o "confidence" with
                    | .vNum q => q
                    | _ => 0
                  reason :=
                    if truthy (objGet o "reason") then objGet o "reason"
                    else .vStr "No reason provided" } := by
    cases o <;> simp_all [verdictOfObj]
  subst hv
  refine ⟨?_, ?_, ?_⟩
  · cases hc : objGet o "confidence" <;> simp_all
  · by_cases hr : truthy (objGet o "reason") = true
    · simp only [if_pos hr]; exact hr
    · simp only [if_neg hr]; decide
  · intro hr; simp [hr]

theorem maxMatchedFrom_nil (b : ℚ) : maxMatchedFrom b [] = b := rfl

theorem maxMatchedFrom_cons (b : ℚ) (v : Verdict) (t : List Verdict) :
    maxMatchedFrom b (v :: t) =
      maxMatchedFrom (if v.matched then max b v.confidence else b) t := rfl

theorem le_maxMatchedFrom (b : ℚ) (l : List Verdict) : b ≤ maxMatchedFrom b l := by
  induction l generalizing b with
  | nil => simp [maxMatchedFrom_nil]
  | cons v t ih =>
    rw [maxMatchedFrom_cons]
    refine le_trans ?_ (ih _)
    split
    · exact le_max_left _ _
    · exact le_rfl

theorem maxMatchedFrom_mono (b b' : ℚ) (l : List Verdict) (h : b ≤ b') :
    maxMatchedFrom b l ≤ maxMatchedFrom b' l := by
  induction l generalizing b b' with
  | nil => simpa [maxMatchedFrom_nil]
  | cons v t ih =>
    rw [maxMatchedFrom_cons, maxMatchedFrom_cons]
    apply ih
    split <;> simp [h, max_le_max h le_rfl]

theorem matched_le_maxMatchedFrom (b : ℚ) (l : List Verdict) (v : Verdict)
    (hv : v ∈ l) (hm : v.matched = true) : v.confidence ≤ maxMatchedFrom b l := by
  induction l generalizing b with
  | nil => cases hv
  | cons w t ih =>
    rw [maxMatchedFrom_cons]
    rcases List.mem_cons.mp hv with h | h
    · subst h
      refine le_trans ?_ (le_maxMatchedFrom _ _)
      simp [hm]
    · exact ih _ h

theorem maxMatchedFrom_achieved (b : ℚ) (l : List Verdict) :
    maxMatchedFrom b l = b ∨
      ∃ v ∈ l, v.matched = true ∧ maxMatchedFrom b l = v.confidence := by
  induction l generalizing b with
  | nil => left; rfl
  | cons v t ih =>
    rw [maxMatchedFrom_cons]
    by_cases hm : v.matched = true
    · simp only [hm, if_true]
      rcases ih (max b v.confidence) with h | ⟨w, hw, hwm, hwe⟩
      · rcases max_choice b v.confidence with hmax | hmax
        · left; rw [h, hmax]
        · right; exact ⟨v, List.mem_cons_self _ _, hm, by rw [h, hmax]⟩
      · right; exact ⟨w, List.mem_cons_of_mem _ hw, hwm, hwe⟩
    · simp only [hm, if_false]
      rcases ih b with h | ⟨w, hw, hwm, hwe⟩
      · left; exact h
      · right; exact ⟨w, List.mem_cons_of_mem _ hw, hwm, hwe⟩

theorem findCongr {α : Type} (l : List α) (p q : α → Bool)
    (h : ∀ x ∈ l, p x = q x) : l.find? p = l.find? q := by
  induction l with
  | nil => rfl
  | cons a t ih =>
    rw [List.find?_cons, List.find?_cons, h a (List.mem_cons_self _ _)]
    split
    · rfl
    · exact ih fun x hx => h x (List.mem_cons_of_mem _ hx)

theorem foldl_sbStep_no_improve (t : List Verdict) (acc : Value × ℚ × Value)
    (h : ∀ w ∈ t, w.matched = true → w.confidence ≤ acc.2.1) :
    t.foldl sbStep acc = acc := by
  induction t with
  | nil => rfl
  | cons w t ih =>
    rw [List.foldl_cons]
    have hw : sbStep acc w = acc := by
      unfold sbStep
      split
      · next hc =>
        exact absurd (h w (List.mem_cons_self _ _) hc.2) (not_le.mpr hc.1)
      · rfl
    rw [hw]
    exact ih fun x hx => h x (List.mem_cons_of_mem _ hx)

/-- The best-match scan computes the first verdict that is matched, strictly
above the accumulator's confidence, and of maximal confidence. -/
theorem foldl_sbStep_eq (l : List Verdict) (acc : Value × ℚ × Value) :
    l.foldl sbStep acc =
      match l.find? (fun v => v.matched && decide (acc.2.1 < v.confidence) &&
          decide (maxMatchedFrom acc.2.1 l ≤ v.confidence)) with
      | some v => (v.file_b_index, v.confidence, v.reason)
      | none => acc := by
  induction l generalizing acc with
  | nil => simp
  | cons v t ih =>
    rw [List.foldl_cons]
    by_cases hm : v.matched = true
    · by_cases hlt : acc.2.1 < v.confidence
      · have hstep : sbStep acc v = (v.file_b_index, v.confidence, v.reason) := by
          simp [sbStep, hlt, hm]
        rw [hstep]
        have hM : maxMatchedFrom acc.2.1 (v :: t) = maxMatchedFrom v.confidence t := by
          rw [maxMatchedFrom_cons, hm, if_pos rfl, max_eq_right (le_of_lt hlt)]
        by_cases hach : maxMatchedFrom v.confidence t ≤ v.confidence
        · have hMv : maxMatchedFrom v.confidence t = v.confidence :=
            le_antisymm hach (le_maxMatchedFrom _ _)
          have hLHS : t.foldl sbStep (v.file_b_index, v.confidence, v.reason) =
              (v.file_b_index, v.confidence, v.reason) := by
            refine foldl_sbStep_no_improve _ _ fun w hw hwm => ?_
            calc w.confidence ≤ maxMatchedFrom v.confidence t :=
                  matched_le_maxMatchedFrom _ _ _ hw hwm
              _ = v.confidence := hMv
          rw [hLHS, List.find?_cons]
          have hp : (v.matched && decide (acc.2.1 < v.confidence) &&
              decide (maxMatchedFrom acc.2.1 (v :: t) ≤ v.confidence)) = true := by
            rw [hM, hMv]; simp [hm, hlt]
          rw [hp]
        · push_neg at hach
          have hfind : ∃ w, t.find? (fun w => w.matched &&
              decide (v.confidence < w.confidence) &&
              decide (maxMatchedFrom v.confidence t ≤ w.confidence)) = some w := by
            rcases maxMatchedFrom_achieved v.confidence t with h | ⟨w, hw, hwm, hwe⟩
            · exact absurd h (by intro h; rw [h] at hach; exact lt_irrefl _ hach)
            · rw [← Option.isSome_iff_exists]
              rw [List.find?_isSome]
              exact ⟨w, hw, by simp [hwm, ← hwe, hach]⟩
          obtain ⟨w, hw⟩ := hfind
          rw [ih, hw, List.find?_cons]
          have hpv : (v.matched && decide (acc.2.1 < v.confidence) &&
              decide (maxMatchedFrom acc.2.1 (v :: t) ≤ v.confidence)) = false := by
            rw [hM]; simp [not_le.mpr hach]
          rw [hpv]
          have hcongr : t.find? (fun x => x.matched && decide (acc.2.1 < x.confidence) &&
              decide (maxMatchedFrom acc.2.1 (v :: t) ≤ x.confidence)) = some w := by
            rw [← hw]
            refine findCongr _ _ _ fun x _ => ?_
            rw [hM]
            by_cases hx : maxMatchedFrom v.confidence t ≤ x.confidence
            · have h1 : acc.2.1 < x.confidence := lt_of_lt_of_le hlt (le_trans hach.le hx)
              have h2 : v.confidence < x.confidence := lt_of_lt_of_le hach hx
              simp [h1, h2, hx]
            · simp [hx]
          rw [hcongr]
      · have hstep : sbStep acc v = acc := by
          unfold sbStep
          split
          · next hc => exact absurd hc.1 hlt
          · rfl
        rw [hstep]
        have hM : maxMatchedFrom acc.2.1 (v :: t) = maxMatchedFrom acc.2.1 t := by
          rw [maxMatchedFrom_cons, hm, if_pos rfl, max_eq_left (not_lt.mp hlt)]
        rw [ih, List.find?_cons]
        have hpv : (v.matched && decide (acc.2.1 < v.confidence) &&
            decide (maxMatchedFrom acc.2.1 (v :: t) ≤ v.confidence)) = false := by
          simp [hlt]
        rw [hpv, hM]
    · have hstep : sbStep acc v = acc := by
        unfold sbStep
        split
        · next hc => exact absurd hc.2 hm
        · rfl
      rw [hstep]
      have hM : maxMatchedFrom acc.2.1 (v :: t) = maxMatchedFrom acc.2.1 t := by
        rw [maxMatchedFrom_cons, if_neg hm]
      rw [ih, List.find?_cons]
      have hpv : (v.matched && decide (acc.2.1 < v.confidence) &&
          decide (maxMatchedFrom acc.2.1 (v :: t) ≤ v.confidence)) = false := by
        simp [hm]
      rw [hpv, hM]

/-- C3 counterexample: a verdict with `file_b_index` equal to -1, matched and
with confidence 0.9 ≥ the threshold 0.85 — the claim says an assignment is
committed whenever the maximum matched confidence reaches the threshold, but
the loop's `-1` sentinel makes the commit check fail. -/
theorem threshold_iff_counterexample :
    commitResult
        [{ file_b_index := .vNum (-1), matched := true, confidence := 9 / 10,
           reason := .vStr "r" }] LLM_MATCH_THRESHOLD = none ∧
    maxMatchedConf
        [{ file_b_index := .vNum (-1), matched := true, confidence := 9 / 10,
           reason := .vStr "r" }] = 9 / 10 ∧
    LLM_MATCH_THRESHOLD ≤ 9 / 10 := by
  refine ⟨by with_unfolding_all decide, by with_unfolding_all decide,
    by with_unfolding_all decide⟩

/-- The best-match scan from the loop's sentinel accumulator. -/
theorem selectBest_eq (l : List Verdict) :
    selectBest l =
      match l.find? (fun v => v.matched && decide ((0 : ℚ) < v.confidence) &&
          decide (maxMatchedConf l ≤ v.confidence)) with
      | some v => (v.file_b_index, v.confidence, v.reason)
      | none => (.vNum (-1), 0, .vStr "") :=
  foldl_sbStep_eq l (.vNum (-1), 0, .vStr "")

/-- C3 amended: for a positive threshold, the resolver picks the first
verdict (in oracle order — the stable tie-break) among those flagged
`match == true` whose confidence equals the maximum matched confidence, and
commits it if and only if that confidence reaches the threshold and its
`file_b_index` is not strictly equal to the number -1 (the loop's sentinel
value); with no matched verdict, or a maximum confidence of 0, nothing is
committed. -/
theorem resolver_selection (l : List Verdict) (θ : ℚ) (hθ : 0 < θ) :
    commitResult l θ =
      match l.find? (fun v => v.matched && decide (v.confidence = maxMatchedConf l)) with
      | some v =>
        if v.file_b_index ≠ .vNum (-1) ∧ θ ≤ v.confidence then
          some (v.file_b_index, v.confidence, v.reason)
        else none
      | none => none := by
  unfold commitResult
  rw [selectBest_eq]
  cases hf : l.find? (fun v => v.matched && decide ((0 : ℚ) < v.confidence) &&
      decide (maxMatchedConf l ≤ v.confidence)) with
  | some v =>
    have hp := List.find?_some hf
    simp only [Bool.and_eq_true, decide_eq_true_eq] at hp
    obtain ⟨⟨hm, hpos⟩, hge⟩ := hp
    have hvl : v ∈ l := List.mem_of_find?_eq_some hf
    have hle : v.confidence ≤ maxMatchedConf l :=
      matched_le_maxMatchedFrom 0 l v hvl hm
    have heq : v.confidence = maxMatchedConf l := le_antisymm hle hge
    have hsame : l.find? (fun w => w.matched && decide (w.confidence = maxMatchedConf l)) =
        some v := by
      rw [← hf]
      refine (findCongr _ _ _ fun w hwmem => ?_)
      by_cases hwm : w.matched = true
      · by_cases hweq : w.confidence = maxMatchedConf l
        · have hwpos : (0 : ℚ) < w.confidence := by rw [hweq, ← heq]; exact hpos
          have hMpos : (0 : ℚ) < maxMatchedConf l := hweq ▸ hwpos
          simp [hwm, hweq, hwpos, hMpos]
        · have hwle : w.confidence ≤ maxMatchedConf l :=
            matched_le_maxMatchedFrom 0 l w hwmem hwm
          have hnle : ¬ (maxMatchedConf l ≤ w.confidence) := fun hcon =>
            hweq (le_antisymm hwle hcon)
          simp [hwm, hweq, hnle]
      · simp at hwm
        simp [hwm]
    rw [hsame]
  | none =>
    have hnone := List.find?_eq_none.mp hf
    have hifneg :
        ¬ (((.vNum (-1) : Value), (0 : ℚ), (.vStr "" : Value)).1 ≠ .vNum (-1) ∧
          θ ≤ ((.vNum (-1) : Value), (0 : ℚ), (.vStr "" : Value)).2.1) := by
      intro hcon
      exact hcon.1 rfl
    rw [if_neg hifneg]
    cases hf2 : l.find? (fun w => w.matched && decide (w.confidence = maxMatchedConf l)) with
    | some v =>
      have hp2 := List.find?_some hf2
      simp only [Bool.and_eq_true, decide_eq_true_eq] at hp2
      obtain ⟨hm2, heq2⟩ := hp2
      have hvl2 : v ∈ l := List.mem_of_find?_eq_some hf2
      have hnotθ : ¬ (θ ≤ v.confidence) := by
        intro hθle
        have hvpos : (0 : ℚ) < v.confidence := lt_of_lt_of_le hθ hθle
        have : (v.matched && decide ((0 : ℚ) < v.confidence) &&
            decide (maxMatchedConf l ≤ v.confidence)) = true := by
          simp [hm2, hvpos, heq2.ge]
        exact hnone v hvl2 this
      show none =
        if v.file_b_index ≠ Value.vNum (-1) ∧ θ ≤ v.confidence then
          some (v.file_b_index, v.confidence, v.reason)
        else none
      have hcond : ¬ (v.file_b_index ≠ Value.vNum (-1) ∧ θ ≤ v.confidence) :=
        fun hcon => hnotθ hcon.2
      rw [if_neg hcond]
    | none => rfl

/-- C3 amended, concrete instance: a single matched verdict above threshold
with a genuine right index is committed as stated. -/
theorem resolver_selection_example :
    commitResult
        [{ file_b_index := .vNum 0, matched := true, confidence := 9 / 10,
           reason := .vStr "r" }] LLM_MATCH_THRESHOLD =
      some (.vNum 0, 9 / 10, .vStr "r") :=
  (resolver_selection _ _ (by norm_num [LLM_MATCH_THRESHOLD])).trans
    (by with_unfolding_all decide)

theorem foldl_sbStep_mem (l : List Verdict) (acc : Value × ℚ × Value) :
    l.foldl sbStep acc = acc ∨
      ∃ v ∈ l, v.matched = true ∧
        l.foldl sbStep acc = (v.file_b_index, v.confidence, v.reason) := by
  induction l generalizing acc with
  | nil => left; rfl
  | cons v t ih =>
    rw [List.foldl_cons]
    by_cases hc : acc.2.1 < v.confidence ∧ v.matched = true
    · have hstep : sbStep acc v = (v.file_b_index, v.confidence, v.reason) := by
        simp [sbStep, hc.1, hc.2]
      rw [hstep]
      rcases ih (v.file_b_index, v.confidence, v.reason) with h | ⟨w, hw, hwm, hwe⟩
      · right; exact ⟨v, List.mem_cons_self _ _, hc.2, h⟩
      · right; exact ⟨w, List.mem_cons_of_mem _ hw, hwm, hwe⟩
    · have hstep : sbStep acc v = acc := by
        unfold sbStep
        split
        · next hcc => exact absurd hcc hc
        · rfl
      rw [hstep]
      rcases ih acc with h | ⟨w, hw, hwm, hwe⟩
      · left; exact h
      · right; exact ⟨w, List.mem_cons_of_mem _ hw, hwm, hwe⟩

/-- A committed selection always originates from a matched verdict of the
batch that reached the threshold. -/
theorem commitResult_mem (l : List Verdict) (θ : ℚ) (sel : Value × ℚ × Value)
    (h : commitResult l θ = some sel) :
    ∃ v ∈ l, v.matched = true ∧ sel = (v.file_b_index, v.confidence, v.reason) ∧
      θ ≤ v.confidence := by
  unfold commitResult at h
  split at h
  · next hcond =>
    have hsel : sel = selectBest l := by
      injection h with h'; exact h'.symm
    rcases foldl_sbStep_mem l (.vNum (-1), 0, .vStr "") with he | ⟨v, hv, hvm, hve⟩
    · exfalso
      apply hcond.1
      show (selectBest l).1 = _
      unfold selectBest
      rw [he]
    · refine ⟨v, hv, hvm, ?_, ?_⟩
      · rw [hsel]; exact hve
      · have h2 := hcond.2
        have : (selectBest l).2.1 = v.confidence := by
          unfold selectBest; rw [hve]
        rwa [this] at h2
  · exact absurd h (by simp)

theorem filterE_mem_iff {α : Type} (p : α → Except Unit Bool) :
    ∀ (l r : List α), filterE p l = .ok r → ∀ x, (x ∈ r ↔ x ∈ l ∧ p x = .ok true) := by
  intro l
  induction l with
  | nil =>
    intro r h x
    simp only [filterE] at h
    injection h with h'
    subst h'
    simp
  | cons a t ih =>
    intro r h x
    simp only [filterE] at h
    cases hb : p a with
    | error e => rw [hb] at h; simp [Bind.bind, Except.bind] at h
    | ok b =>
      rw [hb] at h
      cases hr' : filterE p t with
      | error e => rw [hr'] at h; simp [Bind.bind, Except.bind] at h
      | ok r' =>
        rw [hr'] at h
        simp only [Bind.bind, Except.bind, pure, Except.pure] at h
        injection h with h'
        subst h'
        have iht := ih r' hr' x
        cases b with
        | true =>
          have hred : (if (true : Bool) = true then a :: r' else r') = a :: r' := by simp
          rw [hred]
          constructor
          · intro hx
            rcases List.mem_cons.mp hx with rfl | hx2
            · exact ⟨List.mem_cons_self _ _, hb⟩
            · have h2 := iht.mp hx2
              exact ⟨List.mem_cons_of_mem _ h2.1, h2.2⟩
          · rintro ⟨hmem, hpx⟩
            rcases List.mem_cons.mp hmem with rfl | hx2
            · exact List.mem_cons_self _ _
            · exact List.mem_cons_of_mem _ (iht.mpr ⟨hx2, hpx⟩)
        | false =>
          have hred : (if (false : Bool) = true then a :: r' else r') = r' := by simp
          rw [hred]
          constructor
          · intro hx
            have h2 := iht.mp hx
            exact ⟨List.mem_cons_of_mem _ h2.1, h2.2⟩
          · rintro ⟨hmem, hpx⟩
            rcases List.mem_cons.mp hmem with rfl | hx2
            · exact absurd (hb.symm.trans hpx) (by simp)
            · exact iht.mpr ⟨hx2, hpx⟩

/-- Invariant preservation through the `foldlM` loop of `reconcile`. -/
theorem foldlM_except_invariant {σ α : Type} (step : σ → α → Except Unit σ)
    (P : σ → Prop) (hstep : ∀ s a s', step s a = .ok s' → P s → P s') :
    ∀ (l : List α) (s s' : σ), l.foldlM step s = .ok s' → P s → P s' := by
  intro l
  induction l with
  | nil =>
    intro s s' h hp
    simp only [List.foldlM_nil] at h
    injection h with h'
    rwa [← h']
  | cons a t ih =>
    intro s s' h hp
    rw [List.foldlM_cons] at h
    cases hs1 : step s a with
    | error e => rw [hs1] at h; simp [Bind.bind, Except.bind] at h
    | ok s1 =>
      rw [hs1] at h
      simp only [Bind.bind, Except.bind] at h
      exact ih s1 s' h (hstep s a s1 hs1 hp)

/-- Case analysis of one loop iteration from a successful step. -/
theorem rowStep_ok (f : Nat → List Verdict) (θ : ℚ) (normA normB : List Row)
    (s : RState) (i : Nat) (s' : RState)
    (h : rowStep f θ normA normB s i = .ok s') :
    s' = s ∨
    ∃ cands : List (Row × Nat),
      candidatesFor normB s.usedB (rowGet (normA.getD i []) "Date")
          (getRowAmount (normA.getD i [])) = .ok cands ∧
      i ∉ s.usedA ∧ cands.isEmpty = false ∧
      ((commitResult (f i) θ = none ∧
         s' = { s with
           llm := s.llm ++ (f i).map (mkCandEntry normA normB i)
           calls := s.calls ++ [(i, cands.map (·.2))] }) ∨
       (∃ sel, commitResult (f i) θ = some sel ∧
         s' = { s with
           llm := s.llm ++ (f i).map (mkCandEntry normA normB i)
           calls := s.calls ++ [(i, cands.map (·.2))]
           matches_ := s.matches_ ++ [mkMatchEntry normA normB i sel]
           usedA := s.usedA ++ [i]
           usedB := s.usedB ++ [sel.1]
           assignments := s.assignments ++ [(i, sel.1)] })) := by
  unfold rowStep at h
  split at h
  · left; injection h with h'; exact h'.symm
  · next hni =>
    cases hc : candidatesFor normB s.usedB (rowGet (normA.getD i []) "Date")
        (getRowAmount (normA.getD i [])) with
    | error e => rw [hc] at h; simp [Bind.bind, Except.bind] at h
    | ok cands =>
      rw [hc] at h
      simp only [Bind.bind, Except.bind] at h
      split at h
      · left; injection h with h'; exact h'.symm
      · next hne =>
        cases hcr : commitResult (f i) θ with
        | some sel =>
          rw [hcr] at h
          injection h with h'
          right
          exact ⟨cands, rfl, hni, by simpa using hne, Or.inr ⟨sel, rfl, h'.symm⟩⟩
        | none =>
          rw [hcr] at h
          injection h with h'
          right
          exact ⟨cands, rfl, hni, by simpa using hne, Or.inl ⟨rfl, h'.symm⟩⟩

/-- A successful `reconcile` run exposes the final loop state. -/
theorem reconcileWith_ok (f : Nat → List Verdict) (θ : ℚ) (A B : List Row)
    (res : ReconcileResult) (h : reconcileWith f θ A B = .ok res) :
    ∃ s : RState,
      (List.range (A.map normalizeDatesInObject).length).foldlM
        (rowStep f θ (A.map normalizeDatesInObject) (B.map normalizeDatesInObject))
        initState = .ok s ∧
      res.matches_ = s.matches_ ∧ res.llm_candidates = s.llm ∧
      res.assignments = s.assignments ∧ res.calls = s.calls := by
  unfold reconcileWith at h
  cases hs : (List.range (A.map normalizeDatesInObject).length).foldlM
      (rowStep f θ (A.map normalizeDatesInObject) (B.map normalizeDatesInObject))
      initState with
  | error e => rw [hs] at h; simp [Except.map] at h
  | ok s =>
    rw [hs] at h
    simp only [Except.map] at h
    injection h with h'
    exact ⟨s, rfl, by rw [← h'], by rw [← h'], by rw [← h'], by rw [← h']⟩

/-- C10: every confidence_score in the result — in committed matches and in
every llm_candidates audit entry — is the two-decimal rounding of a
confidence the oracle returned for some left row's batch (and for matches,
of a verdict flagged matched). -/
theorem rounded_scores (f : Nat → List Verdict) (θ : ℚ) (A B : List Row) :
    (∀ e ∈ resultLlm (reconcileWith f θ A B),
      ∃ i, ∃ v ∈ f i, e.confidence_score = round2 v.confidence) ∧
    (∀ m ∈ resultMatches (reconcileWith f θ A B),
      ∃ i, ∃ v ∈ f i, v.matched = true ∧ m.confidence_score = round2 v.confidence) := by
  cases hres : reconcileWith f θ A B with
  | error e => simp [resultLlm, resultMatches]
  | ok res =>
    obtain ⟨s, hs, hm, hl, _, _⟩ := reconcileWith_ok f θ A B res hres
    have hstep : ∀ (s₀ : RState) (i : Nat) (s₁ : RState),
        rowStep f θ (A.map normalizeDatesInObject) (B.map normalizeDatesInObject)
          s₀ i = .ok s₁ →
        ((∀ e ∈ s₀.llm, ∃ i, ∃ v ∈ f i, e.confidence_score = round2 v.confidence) ∧
          (∀ m ∈ s₀.matches_, ∃ i, ∃ v ∈ f i, v.matched = true ∧
            m.confidence_score = round2 v.confidence)) →
        ((∀ e ∈ s₁.llm, ∃ i, ∃ v ∈ f i, e.confidence_score = round2 v.confidence) ∧
          (∀ m ∈ s₁.matches_, ∃ i, ∃ v ∈ f i, v.matched = true ∧
            m.confidence_score = round2 v.confidence)) := by
      intro s₀ i s₁ hstep hp
      rcases rowStep_ok f θ _ _ s₀ i s₁ hstep with rfl | ⟨cands, _, _, _, hrest⟩
      · exact hp
      · have hllm : ∀ e ∈ s₀.llm ++ (f i).map
            (mkCandEntry (A.map normalizeDatesInObject) (B.map normalizeDatesInObject) i),
            ∃ i, ∃ v ∈ f i, e.confidence_score = round2 v.confidence := by
          intro e he
          rcases List.mem_append.mp he with he | he
          · exact hp.1 e he
          · obtain ⟨v, hv, rfl⟩ := List.mem_map.mp he
            exact ⟨i, v, hv, rfl⟩
        rcases hrest with ⟨_, rfl⟩ | ⟨sel, hcr, rfl⟩
        · exact ⟨hllm, hp.2⟩
        · refine ⟨hllm, ?_⟩
          intro m hmem
          rcases List.mem_append.mp hmem with hmem | hmem
          · exact hp.2 m hmem
          · rw [List.mem_singleton] at hmem
            subst hmem
            obtain ⟨v, hv, hvm, hseleq, _⟩ := commitResult_mem (f i) θ sel hcr
            refine ⟨i, v, hv, hvm, ?_⟩
            show round2 sel.2.1 = round2 v.confidence
            rw [hseleq]
    have hP := foldlM_except_invariant _ _ hstep _ _ _ hs
      ⟨by simp [initState], by simp [initState]⟩
    constructor
    · intro e he
      exact hP.1 e (by simpa [resultLlm, hl] using he)
    · intro m hmem
      exact hP.2 m (by simpa [resultMatches, hm] using hmem)

/-- C10, concrete instance: the single audit entry of a one-row run carries
the rounded confidence of the oracle's verdict. -/
theorem rounded_scores_example :
    ∃ i, ∃ v ∈ (fun i => geminiBatchMatchRowPure (constOracle0 i)) i,
      ((resultLlm (reconcileWith (fun i => geminiBatchMatchRowPure (constOracle0 i))
          LLM_MATCH_THRESHOLD [sampleRow] [sampleRow])).headD anyCandEntry).confidence_score =
        round2 v.confidence :=
  (rounded_scores (fun i => geminiBatchMatchRowPure (constOracle0 i))
      LLM_MATCH_THRESHOLD [sampleRow] [sampleRow]).1 _
    (by with_unfolding_all decide)

/-- C1 counterexample: two identical left rows, two identical right rows, an
oracle that always answers `file_b_index` 0 with confidence 0.9.  The
second left row's candidate set correctly excludes the used right index 0,
but the commit trusts the oracle's returned index and books right index 0 a
second time. -/
theorem double_booked_right_index :
    (resultAssignments (reconcileOracle constOracle0 LLM_MATCH_THRESHOLD
        [sampleRow, sampleRow] [sampleRow, sampleRow])).map Prod.snd =
      [Value.vNum 0, Value.vNum 0] ∧
    ¬ ([Value.vNum 0, Value.vNum 0].Nodup) := by
  constructor
  · with_unfolding_all decide
  · simp

/-- C1 amended: each leftIndex appears in at most one committed assignment
unconditionally; and provided every oracle verdict's `file_b_index` is among
the candidate indices offered in that call (which the claim's arbitrary
verdicts violate), each rightIndex also appears in at most one committed
assignment. -/
theorem strict_one_to_one (f : Nat → List Verdict) (θ : ℚ) (A B : List Row) :
    ((resultAssignments (reconcileWith f θ A B)).map Prod.fst).Nodup ∧
    ((∀ p ∈ resultCalls (reconcileWith f θ A B), ∀ v ∈ f p.1,
        ∃ n ∈ p.2, v.file_b_index = .vNum (n : ℚ)) →
      ((resultAssignments (reconcileWith f θ A B)).map Prod.snd).Nodup) := by
  cases hres : reconcileWith f θ A B with
  | error e => simp [resultAssignments, resultCalls]
  | ok res =>
    obtain ⟨s, hs, _, _, ha, hcalls⟩ := reconcileWith_ok f θ A B res hres
    have hstep : ∀ (s₀ : RState) (i : Nat) (s₁ : RState),
        rowStep f θ (A.map normalizeDatesInObject) (B.map normalizeDatesInObject)
          s₀ i = .ok s₁ →
        (s₀.usedA = s₀.assignments.map Prod.fst ∧
          s₀.usedB = s₀.assignments.map Prod.snd ∧
          (s₀.assignments.map Prod.fst).Nodup ∧
          ((∀ p ∈ s₀.calls, ∀ v ∈ f p.1, ∃ n ∈ p.2, v.file_b_index = .vNum (n : ℚ)) →
            (s₀.assignments.map Prod.snd).Nodup)) →
        (s₁.usedA = s₁.assignments.map Prod.fst ∧
          s₁.usedB = s₁.assignments.map Prod.snd ∧
          (s₁.assignments.map Prod.fst).Nodup ∧
          ((∀ p ∈ s₁.calls, ∀ v ∈ f p.1, ∃ n ∈ p.2, v.file_b_index = .vNum (n : ℚ)) →
            (s₁.assignments.map Prod.snd).Nodup)) := by
      intro s₀ i s₁ hstepeq hp
      obtain ⟨hA, hB, hN, hC⟩ := hp
      rcases rowStep_ok f θ _ _ s₀ i s₁ hstepeq with rfl | ⟨cands, hc, hni, _, hrest⟩
      · exact ⟨hA, hB, hN, hC⟩
      · rcases hrest with ⟨_, rfl⟩ | ⟨sel, hcr, rfl⟩
        · refine ⟨hA, hB, hN, fun H => hC fun p hp' => H p (List.mem_append_left _ hp')⟩
        · obtain ⟨v, hv, hvm, hseleq, _⟩ := commitResult_mem (f i) θ sel hcr
          have hni' : i ∉ s₀.assignments.map Prod.fst := by rwa [← hA]
          refine ⟨by simp [hA], by simp [hB], ?_, ?_⟩
          · rw [List.map_append]
            rw [List.nodup_append]
            exact ⟨hN, List.nodup_singleton _, by
              intro a hmem h1
              simp only [List.map_cons, List.map_nil, List.mem_singleton] at h1
              subst h1
              exact hni' hmem⟩
          · intro H
            have Hold : ∀ p ∈ s₀.calls, ∀ v ∈ f p.1, ∃ n ∈ p.2,
                v.file_b_index = .vNum (n : ℚ) :=
              fun p hp' => H p (List.mem_append_left _ hp')
            have hNold := hC Hold
            have hpnew : (i, cands.map (·.2)) ∈ s₀.calls ++ [(i, cands.map (·.2))] :=
              List.mem_append_right _ (List.mem_singleton.mpr rfl)
            obtain ⟨n, hn, hfb⟩ := H (i, cands.map (·.2)) hpnew v hv
            obtain ⟨c, hcmem, hceq⟩ := List.mem_map.mp hn
            have hcand := (filterE_mem_iff _ _ _ hc c).mp hcmem
            have hnotused : Value.vNum ((c.2 : Nat) : ℚ) ∉ s₀.usedB := by
              intro hmem
              have := hcand.2
              rw [if_pos hmem] at this
              simp [pure, Except.pure] at this
            have hselnot : sel.1 ∉ s₀.assignments.map Prod.snd := by
              rw [← hB]
              rw [hseleq]
              show v.file_b_index ∉ s₀.usedB
              rw [hfb, ← hceq]
              exact hnotused
            rw [List.map_append]
            rw [List.nodup_append]
            refine ⟨hNold, List.nodup_singleton _, ?_⟩
            intro a hmem h1
            simp only [List.map_cons, List.map_nil, List.mem_singleton] at h1
            subst h1
            exact hselnot hmem
    have hP := foldlM_except_invariant _ _ hstep _ _ _ hs
      ⟨by simp [initState], by simp [initState], by simp [initState],
        fun _ => by simp [initState]⟩
    constructor
    · show (res.assignments.map Prod.fst).Nodup
      rw [ha]
      exact hP.2.2.1
    · intro H
      show (res.assignments.map Prod.snd).Nodup
      rw [ha]
      refine hP.2.2.2 ?_
      rw [← hcalls]
      exact H

/-- C1 amended, concrete instance: a one-row-per-side run with an oracle
answering the offered candidate index: both index columns are duplicate-free. -/
theorem strict_one_to_one_example :
    ((resultAssignments (reconcileOracle constOracle0 LLM_MATCH_THRESHOLD
        [sampleRow] [sampleRow])).map Prod.fst).Nodup ∧
    ((resultAssignments (reconcileOracle constOracle0 LLM_MATCH_THRESHOLD
        [sampleRow] [sampleRow])).map Prod.snd).Nodup := by
  have h := strict_one_to_one (fun i => geminiBatchMatchRowPure (constOracle0 i))
    LLM_MATCH_THRESHOLD [sampleRow] [sampleRow]
  exact ⟨h.1, h.2 (by with_unfolding_all decide)⟩

theorem commitResult_nil (θ : ℚ) : commitResult [] θ = none := by
  unfold commitResult
  rw [if_neg]
  rintro ⟨h1, _⟩
  exact h1 rfl

/-- C2 counterexample: one left row, one right row within tolerance, oracle
text that parses to nothing.  The call was made with candidate index 0
offered (`calls` records it), yet the audit trail receives no verdict at
all — no confidence-0, parse-failure verdict exists — and the run still
completes. -/
theorem parse_failure_counterexample :
    resultCalls (reconcileOracle (fun _ => "garbage") LLM_MATCH_THRESHOLD
        [sampleRow] [sampleRow]) = [(0, [0])] ∧
    resultLlm (reconcileOracle (fun _ => "garbage") LLM_MATCH_THRESHOLD
        [sampleRow] [sampleRow]) = [] ∧
    geminiBatchMatchRowPure "garbage" = [] ∧
    (reconcileOracle (fun _ => "garbage") LLM_MATCH_THRESHOLD
        [sampleRow] [sampleRow]).isOk = true := by
  refine ⟨by with_unfolding_all decide, by with_unfolding_all decide,
    by with_unfolding_all decide, by with_unfolding_all decide⟩

/-- C2 amended: when the oracle response of a left row parses to no verdicts
(the adapter returned the empty list), the loop records nothing for any of
that row's candidates, commits no assignment, and continues: the iteration
either aborts on the independent left-date TypeError, skips the row
entirely, or only appends the call record, leaving every other state
component unchanged. -/
theorem parse_failure_skips_row (f : Nat → List Verdict) (θ : ℚ)
    (normA normB : List Row) (s : RState) (i : Nat) (hf : f i = []) :
    rowStep f θ normA normB s i = .error () ∨
    rowStep f θ normA normB s i = .ok s ∨
    ∃ off, rowStep f θ normA normB s i = .ok { s with calls := s.calls ++ [(i, off)] } := by
  by_cases hmem : i ∈ s.usedA
  · right; left
    unfold rowStep
    rw [if_pos hmem]
    rfl
  · cases hcand : candidatesFor normB s.usedB (rowGet (normA.getD i []) "Date")
        (getRowAmount (normA.getD i [])) with
    | error e =>
      left
      unfold rowStep
      rw [if_neg hmem, hcand]
      rfl
    | ok cands =>
      cases hemp : cands.isEmpty with
      | true =>
        right; left
        unfold rowStep
        rw [if_neg hmem, hcand]
        simp [Bind.bind, Except.bind, hemp, pure, Except.pure]
      | false =>
        right; right
        refine ⟨cands.map (·.2), ?_⟩
        unfold rowStep
        rw [if_neg hmem, hcand]
        simp [Bind.bind, Except.bind, hemp, hf, commitResult_nil, pure, Except.pure]

/-- C2 amended, concrete instance: with an empty verdict list the iteration
on a one-candidate state only records the call. -/
theorem parse_failure_skips_row_example :
    rowStep (fun _ => []) LLM_MATCH_THRESHOLD [sampleRow] [sampleRow]
        initState 0 = .error () ∨
    rowStep (fun _ => []) LLM_MATCH_THRESHOLD [sampleRow] [sampleRow]
        initState 0 = .ok initState ∨
    ∃ off, rowStep (fun _ => []) LLM_MATCH_THRESHOLD [sampleRow] [sampleRow]
        initState 0 = .ok { initState with calls := initState.calls ++ [(0, off)] } :=
  parse_failure_skips_row (fun _ => []) LLM_MATCH_THRESHOLD [sampleRow] [sampleRow]
    initState 0 rfl

theorem amountsAreClose_iff (a b : Value) (tol : ℚ) :
    amountsAreClose a b tol = true ↔
      ∃ x y, parseFloatStripped (stripNonNum (jsToString a)) = some x ∧
        parseFloatStripped (stripNonNum (jsToString b)) = some y ∧ |x - y| ≤ tol := by
  unfold amountsAreClose
  cases hx : parseFloatStripped (stripNonNum (jsToString a)) <;>
    cases hy : parseFloatStripped (stripNonNum (jsToString b)) <;> simp

theorem datesAreClose_iff_dayDiff (sa sb : String) :
    datesAreClose sa sb 7 = true ↔
      ∃ x y, dateDayOf sa = some x ∧ dateDayOf sb = some y ∧ |x - y| ≤ (7 : ℤ) := by
  unfold datesAreClose
  cases hx : dateDayOf sa <;> cases hy : dateDayOf sb <;> simp
  next x y =>
    have hfac : |(x : ℚ) * 86400000 - (y : ℚ) * 86400000| = |(x : ℚ) - y| * 86400000 := by
      rw [← sub_mul, abs_mul]
      norm_num
    constructor
    · intro hle
      rw [hfac] at hle
      have h2 : |(x : ℚ) - y| ≤ 7 := by
        nlinarith [hle]
      have : |((x - y : ℤ) : ℚ)| ≤ ((7 : ℤ) : ℚ) := by push_cast; exact h2
      rw [← Int.cast_abs] at this
      exact_mod_cast this
    · intro hle
      rw [hfac]
      have h2 : |(x : ℚ) - y| ≤ 7 := by
        have : ((|x - y| : ℤ) : ℚ) ≤ ((7 : ℤ) : ℚ) := by exact_mod_cast hle
        rw [Int.cast_abs] at this
        push_cast at this
        exact this
      nlinarith [h2]

/-- C4: a right row is a candidate of a left row (whose normalized date is
the string `sa`) iff its index is unused, its `Date` is a non-blank string,
the calendar-day difference of the two dates is at most 7 days, and both
derived amounts parse after stripping formatting with difference at most
500; a failed amount parse on either side excludes the pair. -/
theorem candidate_iff (normB : List Row) (usedB : List Value) (sa : String)
    (amountA : Value) (l : List (Row × Nat))
    (h : candidatesFor normB usedB (.vStr sa) amountA = .ok l)
    (b : Row) (idx : Nat) :
    (b, idx) ∈ l ↔
      normB[idx]? = some b ∧
      Value.vNum (idx : ℚ) ∉ usedB ∧
      (∃ sb, rowGet b "Date" = .vStr sb ∧ sb ≠ "" ∧
        ∃ da db, dateDayOf sa = some da ∧ dateDayOf sb = some db ∧ |da - db| ≤ 7) ∧
      (∃ x y, parseFloatStripped (stripNonNum (jsToString amountA)) = some x ∧
        parseFloatStripped (stripNonNum (jsToString (getRowAmount b))) = some y ∧
        |x - y| ≤ 500) := by
  unfold candidatesFor at h
  rw [filterE_mem_iff _ _ _ h (b, idx)]
  constructor
  · rintro ⟨hmem, hpred⟩
    obtain ⟨p, hpenum, hpeq⟩ := List.mem_map.mp hmem
    have hp1 : p = (idx, b) := by
      obtain ⟨p1, p2⟩ := p
      injection hpeq with e1 e2
      simp_all
    subst hp1
    have hget : normB[idx]? = some b := List.mk_mem_enum_iff_getElem?.mp hpenum
    by_cases hused : Value.vNum ((idx : Nat) : ℚ) ∈ usedB
    · rw [if_pos hused] at hpred
      simp [pure, Except.pure] at hpred
    · rw [if_neg hused] at hpred
      by_cases htr : truthy (rowGet b "Date") = true
      · rw [if_neg (by simp [htr])] at hpred
        cases hdv : rowGet b "Date" with
        | vStr sb =>
          rw [hdv] at hpred
          simp only [datesAreCloseV, Bind.bind, Except.bind, pure, Except.pure] at hpred
          injection hpred with hpred
          rw [Bool.and_eq_true] at hpred
          have hsb : sb ≠ "" := by
            rw [hdv] at htr
            simpa [truthy] using htr
          obtain ⟨hdate, ham⟩ := hpred
          obtain ⟨x, y, hx, hy, hxy⟩ := (datesAreClose_iff_dayDiff sa sb).mp hdate
          obtain ⟨u, w, hu, hw, huw⟩ := (amountsAreClose_iff _ _ _).mp ham
          exact ⟨hget, hused, ⟨sb, rfl, hsb, x, y, hx, hy, hxy⟩, ⟨u, w, hu, hw, huw⟩⟩
        | vNull => rw [hdv] at htr; simp [truthy] at htr
        | vBool bb =>
          rw [hdv] at hpred
          simp only [datesAreCloseV, Bind.bind, Except.bind] at hpred
          cases hpred
        | vNum q =>
          rw [hdv] at hpred
          simp only [datesAreCloseV, Bind.bind, Except.bind] at hpred
          cases hpred
        | vArr aa =>
          rw [hdv] at hpred
          simp only [datesAreCloseV, Bind.bind, Except.bind] at hpred
          cases hpred
        | vObj oo =>
          rw [hdv] at hpred
          simp only [datesAreCloseV, Bind.bind, Except.bind] at hpred
          cases hpred
      · rw [if_pos (by simpa using htr)] at hpred
        simp [pure, Except.pure] at hpred
  · rintro ⟨hget, hused, ⟨sb, hdv, hsb, x, y, hx, hy, hxy⟩, u, w, hu, hw, huw⟩
    constructor
    · refine List.mem_map.mpr ⟨(idx, b), ?_, rfl⟩
      exact List.mk_mem_enum_iff_getElem?.mpr hget
    · rw [if_neg hused]
      have htr : truthy (rowGet b "Date") = true := by rw [hdv]; simpa [truthy] using hsb
      rw [if_neg (by simp [htr])]
      rw [hdv]
      simp only [datesAreCloseV, Bind.bind, Except.bind, pure, Except.pure]
      have hdate : datesAreClose sa sb 7 = true :=
        (datesAreClose_iff_dayDiff sa sb).mpr ⟨x, y, hx, hy, hxy⟩
      have ham : amountsAreClose amountA (getRowAmount b) 500 = true :=
        (amountsAreClose_iff _ _ _).mpr ⟨u, w, hu, hw, huw⟩
      rw [hdate, ham]
      rfl

/-- C4, concrete instance: a right row equal in date and amount to the left
row is a candidate at index 0. -/
theorem candidate_iff_example :
    ((sampleRow, 0) ∈ [(sampleRow, 0)]) ↔
      ([sampleRow] : List Row)[0]? = some sampleRow ∧
      Value.vNum ((0 : Nat) : ℚ) ∉ ([] : List Value) ∧
      (∃ sb, rowGet sampleRow "Date" = .vStr sb ∧ sb ≠ "" ∧
        ∃ da db, dateDayOf "01/05/2024" = some da ∧ dateDayOf sb = some db ∧
          |da - db| ≤ 7) ∧
      (∃ x y, parseFloatStripped (stripNonNum (jsToString (.vStr "100"))) = some x ∧
        parseFloatStripped (stripNonNum (jsToString (getRowAmount sampleRow))) = some y ∧
        |x - y| ≤ 500) :=
  candidate_iff [sampleRow] [] "01/05/2024" (.vStr "100") [(sampleRow, 0)]
    (by with_unfolding_all rfl) sampleRow 0

/-- C7 amended, concrete instance: an object with missing reason and string
confidence yields confidence 0 and the placeholder reason. -/
theorem verdict_fields_example :
    ((∃ q : ℚ, objGet (.vObj [("confidence", .vStr "high")]) "confidence" = .vNum q ∧
        (0 : ℚ) = q) ∨
      ((∀ q : ℚ, objGet (.vObj [("confidence", .vStr "high")]) "confidence" ≠ .vNum q) ∧
        (0 : ℚ) = 0)) ∧
    truthy (Value.vStr "No reason provided") = true ∧
    (truthy (objGet (.vObj [("confidence", .vStr "high")]) "reason") = false →
      (Value.vStr "No reason provided") = .vStr "No reason provided") := by
  have h := verdict_fields (.vObj [("confidence", .vStr "high")])
    { file_b_index := .vNull, matched := false, confidence := 0,
      reason := .vStr "No reason provided" } (by with_unfolding_all decide)
  simpa using h

theorem all_takeWhile {α : Type} (p : α → Bool) (l : List α) :
    (l.takeWhile p).all p = true := by
  induction l with
  | nil => rfl
  | cons a t ih =>
    rw [List.takeWhile_cons]
    split
    · next h => simp [h, ih]
    · rfl

theorem takeWhile_eq_self_of_all {α : Type} (p : α → Bool) (l : List α)
    (h : l.all p = true) : l.takeWhile p = l := by
  induction l with
  | nil => rfl
  | cons a t ih =>
    simp only [List.all_cons, Bool.and_eq_true] at h
    rw [List.takeWhile_cons, if_pos h.1, ih h.2]

theorem dropWhile_eq_nil_of_all {α : Type} (p : α → Bool) (l : List α)
    (h : l.all p = true) : l.dropWhile p = [] := by
  induction l with
  | nil => rfl
  | cons a t ih =>
    simp only [List.all_cons, Bool.and_eq_true] at h
    rw [List.dropWhile_cons, if_pos h.1, ih h.2]

theorem takeWhile_append_not {α : Type} (p : α → Bool) (A : List α) (c : α)
    (B : List α) (hA : A.all p = true) (hc : p c = false) :
    (A ++ c :: B).takeWhile p = A := by
  induction A with
  | nil => simp [List.takeWhile_cons, hc]
  | cons a t ih =>
    simp only [List.all_cons, Bool.and_eq_true] at hA
    rw [List.cons_append, List.takeWhile_cons, if_pos hA.1, ih hA.2]

theorem dropWhile_append_not {α : Type} (p : α → Bool) (A : List α) (c : α)
    (B : List α) (hA : A.all p = true) (hc : p c = false) :
    (A ++ c :: B).dropWhile p = c :: B := by
  induction A with
  | nil => simp [List.dropWhile_cons, hc]
  | cons a t ih =>
    simp only [List.all_cons, Bool.and_eq_true] at hA
    rw [List.cons_append, List.dropWhile_cons, if_pos hA.1, ih hA.2]

theorem length_dropWhile_le {α : Type} (p : α → Bool) (l : List α) :
    (l.dropWhile p).length ≤ l.length := by
  induction l with
  | nil => simp
  | cons a t ih =>
    rw [List.dropWhile_cons]
    split
    · exact le_trans ih (by simp)
    · simp

theorem dropWhile_idem {α : Type} (p : α → Bool) (l : List α) :
    (l.dropWhile p).dropWhile p = l.dropWhile p := by
  induction l with
  | nil => rfl
  | cons a t ih =>
    rw [List.dropWhile_cons]
    split
    · exact ih
    · next h => rw [List.dropWhile_cons, if_neg h]

/-- The head of a `dropWhile` result never satisfies the predicate. -/
theorem dropWhile_head_not {α : Type} (p : α → Bool) (l : List α) (a : α)
    (t : List α) (h : l.dropWhile p = a :: t) : p a = false := by
  induction l with
  | nil => cases h
  | cons b r ih =>
    rw [List.dropWhile_cons] at h
    split at h
    · exact ih h
    · next hb =>
      injection h with h1 _
      subst h1
      simp at hb
      simp [hb]

theorem dropWhile_eq_self_of_head_not {α : Type} (p : α → Bool) :
    ∀ l : List α, (∀ a t, l = a :: t → p a = false) → l.dropWhile p = l := by
  intro l h
  cases l with
  | nil => rfl
  | cons a t => rw [List.dropWhile_cons, if_neg (by simp [h a t rfl])]

theorem dropTrailing_idem {α : Type} (p : α → Bool) (l : List α) :
    dropTrailing p (dropTrailing p l) = dropTrailing p l := by
  unfold dropTrailing
  rw [List.reverse_reverse, dropWhile_idem]

/-- `dropTrailing` yields a prefix of its argument. -/
theorem dropTrailing_prefix {α : Type} (p : α → Bool) (l : List α) :
    dropTrailing p l <+: l := by
  unfold dropTrailing
  have hsuf : l.reverse.dropWhile p <:+ l.reverse := List.dropWhile_suffix p
  obtain ⟨u, hu⟩ := hsuf
  refine ⟨u.reverse, ?_⟩
  have h2 := congrArg List.reverse hu
  rw [List.reverse_append, List.reverse_reverse] at h2
  exact h2

theorem trimL_idem (l : List Char) : trimL (trimL l) = trimL l := by
  unfold trimL
  have hX : (l.dropWhile jsWs).dropWhile jsWs = l.dropWhile jsWs := dropWhile_idem _ _
  set X := l.dropWhile jsWs with hXdef
  have hY : (dropTrailing jsWs X).dropWhile jsWs = dropTrailing jsWs X := by
    apply dropWhile_eq_self_of_head_not
    intro a t hat
    obtain ⟨u, hu⟩ := dropTrailing_prefix jsWs X
    rw [hat] at hu
    have : X.dropWhile jsWs = X := hX
    rw [← hu] at this
    rw [List.cons_append] at this
    rw [List.dropWhile_cons] at this
    split at this
    · next ha =>
      have hlen := congrArg List.length this
      have h1 : ((t ++ u).dropWhile jsWs).length ≤ (t ++ u).length :=
        length_dropWhile_le _ _
      rw [List.length_cons] at hlen
      omega
    · next ha => simpa using ha
  rw [hY, dropTrailing_idem]

theorem isDig_digitChar (k : Nat) (h : k < 10) : isDig (digitChar k) = true := by
  interval_cases k <;> decide

theorem not_ws_of_isDig (c : Char) (h : isDig c = true) : jsWs c = false := by
  simp only [jsWs, decide_eq_false_iff_not]
  rintro (rfl | rfl | rfl | rfl | rfl | rfl) <;> exact absurd h (by decide)

theorem not_dig_slash : isDig '/' = false := by decide

theorem natDigitsAux_all_dig : ∀ (fuel n : Nat), (natDigitsAux fuel n).all isDig = true := by
  intro fuel
  induction fuel with
  | zero => intro n; rfl
  | succ f ih =>
    intro n
    unfold natDigitsAux
    split
    · next h => simp [isDig_digitChar n h]
    · next h =>
      simp [ih, isDig_digitChar (n % 10) (Nat.mod_lt _ (by omega))]

theorem natDigits_all_dig (n : Nat) : (natDigits n).all isDig = true :=
  natDigitsAux_all_dig _ _

theorem natDigitsAux_small (fuel n : Nat) (hf : 1 ≤ fuel) (hn : n < 10) :
    natDigitsAux fuel n = [digitChar n] := by
  cases fuel with
  | zero => omega
  | succ f => unfold natDigitsAux; rw [if_pos hn]

theorem natDigitsAux_step (fuel n : Nat) (hf : 1 ≤ fuel) (hn : 10 ≤ n) :
    natDigitsAux fuel n = natDigitsAux (fuel - 1) (n / 10) ++ [digitChar (n % 10)] := by
  cases fuel with
  | zero => omega
  | succ f =>
    have hff : f + 1 - 1 = f := rfl
    rw [hff]
    simp only [natDigitsAux]
    rw [if_neg (by omega)]

theorem natDigitsAux_len : ∀ (k fuel n : Nat), 10 ^ k ≤ n → n < 10 ^ (k + 1) →
    k + 1 ≤ fuel → (natDigitsAux fuel n).length = k + 1 := by
  intro k
  induction k with
  | zero =>
    intro fuel n h1 h2 hf
    rw [natDigitsAux_small fuel n hf (by simpa using h2)]
    rfl
  | succ k ih =>
    intro fuel n h1 h2 hf
    have h10 : (10 : Nat) ≤ 10 ^ (k + 1) := by
      calc (10 : Nat) = 10 ^ 1 := (pow_one 10).symm
        _ ≤ 10 ^ (k + 1) := Nat.pow_le_pow_right (by norm_num) (by omega)
    have hn : 10 ≤ n := le_trans h10 h1
    rw [natDigitsAux_step fuel n (by omega) hn]
    rw [List.length_append, List.length_cons, List.length_nil]
    have hdiv1 : 10 ^ k ≤ n / 10 := by
      rw [Nat.le_div_iff_mul_le (by norm_num)]
      calc 10 ^ k * 10 = 10 ^ (k + 1) := by ring
        _ ≤ n := h1
    have hdiv2 : n / 10 < 10 ^ (k + 1) := by
      rw [Nat.div_lt_iff_lt_mul (by norm_num)]
      calc n < 10 ^ (k + 1 + 1) := h2
        _ = 10 ^ (k + 1) * 10 := by ring
    rw [ih (fuel - 1) (n / 10) hdiv1 hdiv2 (by omega)]

theorem natDigits_len_le2 (n : Nat) (h : n ≤ 99) :
    1 ≤ (natDigits n).length ∧ (natDigits n).length ≤ 2 := by
  unfold natDigits
  by_cases h10 : n < 10
  · rw [natDigitsAux_small _ _ (by omega) h10]
    simp
  · have hlen := natDigitsAux_len 1 (n + 1) n (by omega) (by norm_num; omega) (by omega)
    omega

theorem natDigits_len4 (n : Nat) (h1 : 1000 ≤ n) (h2 : n ≤ 9999) :
    (natDigits n).length = 4 := by
  unfold natDigits
  have e3 : (10 : Nat) ^ 3 = 1000 := by norm_num
  have e4 : (10 : Nat) ^ (3 + 1) = 10000 := by norm_num
  exact natDigitsAux_len 3 (n + 1) n (by rw [e3]; omega) (by rw [e4]; omega) (by omega)

theorem pad2L_all_dig (l : List Char) (h : l.all isDig = true) :
    (pad2L l).all isDig = true := by
  unfold pad2L
  split
  · exact h
  · split
    · simp [h, show isDig '0' = true from by decide]
    · decide

theorem pad2L_len (l : List Char) (h1 : 1 ≤ l.length) (h2 : l.length ≤ 2) :
    (pad2L l).length = 2 := by
  unfold pad2L
  split
  · omega
  · split
    · next hl => simp [hl]
    · rfl

theorem pad2L_of_len2 (l : List Char) (h : l.length = 2) : pad2L l = l := by
  unfold pad2L
  rw [if_pos (by omega)]

theorem matchDMY_render (m d y : List Char)
    (hm : m.all isDig = true) (hm1 : 1 ≤ m.length) (hm2 : m.length ≤ 2)
    (hd : d.all isDig = true) (hd1 : 1 ≤ d.length) (hd2 : d.length ≤ 2)
    (hy : y.all isDig = true) :
    matchDMY (renderMDY m d y) = some (m, d, y) := by
  have e1 : (m ++ '/' :: (d ++ '/' :: y)).takeWhile isDig = m :=
    takeWhile_append_not _ _ _ _ hm not_dig_slash
  have e2 : (m ++ '/' :: (d ++ '/' :: y)).dropWhile isDig = '/' :: (d ++ '/' :: y) :=
    dropWhile_append_not _ _ _ _ hm not_dig_slash
  have e3 : (d ++ '/' :: y).takeWhile isDig = d :=
    takeWhile_append_not _ _ _ _ hd not_dig_slash
  have e4 : (d ++ '/' :: y).dropWhile isDig = '/' :: y :=
    dropWhile_append_not _ _ _ _ hd not_dig_slash
  have e5 : y.takeWhile isDig = y := takeWhile_eq_self_of_all _ _ hy
  have e6 : y.dropWhile isDig = [] := dropWhile_eq_nil_of_all _ _ hy
  unfold renderMDY matchDMY
  simp only [e1, e2, e3, e4, e5, e6]
  rw [if_pos ⟨hm1, hm2⟩, if_pos (show isSep '/' = true from by decide),
    if_pos ⟨hd1, hd2⟩, if_pos (show isSep '/' = true from by decide),
    if_pos (show (List.isEmpty ([] : List Char)) = true from rfl)]

theorem matchDMY_sound (cs g1 g2 g3 : List Char)
    (h : matchDMY cs = some (g1, g2, g3)) :
    g1.all isDig = true ∧ 1 ≤ g1.length ∧ g1.length ≤ 2 ∧
    g2.all isDig = true ∧ 1 ≤ g2.length ∧ g2.length ≤ 2 ∧ g3.all isDig = true := by
  unfold matchDMY at h
  split at h
  case isTrue hc1 =>
    split at h
    case h_2 => cases h
    case h_1 c1 r1' heq1 =>
      split at h
      case isFalse => cases h
      case isTrue hsep1 =>
        split at h
        case isFalse => cases h
        case isTrue hc2 =>
          split at h
          case h_2 => cases h
          case h_1 c2 r2' heq2 =>
            split at h
            case isFalse => cases h
            case isTrue hsep2 =>
              split at h
              case isFalse => cases h
              case isTrue hempty =>
                injection h with h'
                have e1 : cs.takeWhile isDig = g1 := congrArg Prod.fst h'
                have e2 : r1'.takeWhile isDig = g2 :=
                  congrArg (fun p => p.2.1) h'
                have e3 : r2'.takeWhile isDig = g3 :=
                  congrArg (fun p => p.2.2) h'
                refine ⟨?_, ?_, ?_, ?_, ?_, ?_, ?_⟩
                · rw [← e1]; exact all_takeWhile _ _
                · rw [← e1]; exact hc1.1
                · rw [← e1]; exact hc1.2
                · rw [← e2]; exact all_takeWhile _ _
                · rw [← e2]; exact hc2.1
                · rw [← e2]; exact hc2.2
                · rw [← e3]; exact all_takeWhile _ _
  case isFalse => cases h

theorem natOfDigits_len2_lt (g : List Char) (hg : g.all isDig = true)
    (hlen : g.length = 2) : natOfDigits g < 100 := by
  cases g with
  | nil => simp at hlen
  | cons a t =>
    cases t with
    | nil => simp at hlen
    | cons b t2 =>
      cases t2 with
      | cons c t3 => simp at hlen
      | nil =>
        simp only [List.all_cons, List.all_nil, Bool.and_eq_true] at hg
        obtain ⟨ha, hb, _⟩ := hg
        simp only [isDig, decide_eq_true_eq] at ha hb
        unfold natOfDigits
        simp only [List.foldl]
        omega

theorem excel_days_bounds (q : ℚ) (h1 : 40000 < q) (h2 : q < 60000) :
    14431 ≤ (⌊q - 25569⌋ : Int).toNat ∧ (⌊q - 25569⌋ : Int).toNat ≤ 34430 := by
  have hf1 : (14431 : Int) ≤ ⌊q - 25569⌋ := by
    rw [Int.le_floor]
    push_cast
    linarith
  have hf2 : ⌊q - 25569⌋ < (34431 : Int) := by
    rw [Int.floor_lt]
    push_cast
    linarith
  omega

theorem civilFromDaysPos_bounds (days : Nat) (h1 : 14431 ≤ days) (h2 : days ≤ 34430) :
    1 ≤ (civilFromDaysPos days).2.1 ∧ (civilFromDaysPos days).2.1 ≤ 12 ∧
    1 ≤ (civilFromDaysPos days).2.2 ∧ (civilFromDaysPos days).2.2 ≤ 31 ∧
    2009 ≤ (civilFromDaysPos days).1 ∧ (civilFromDaysPos days).1 ≤ 2064 := by
  unfold civilFromDaysPos
  dsimp only
  split_ifs <;> omega

theorem dropWhile_eq_self_of_all_not {α : Type} (p : α → Bool) (l : List α)
    (h : ∀ c ∈ l, p c = false) : l.dropWhile p = l := by
  cases l with
  | nil => rfl
  | cons a t =>
    rw [List.dropWhile_cons, if_neg (by simp [h a (List.mem_cons_self _ _)])]

theorem trimL_eq_self (l : List Char) (h : ∀ c ∈ l, jsWs c = false) : trimL l = l := by
  unfold trimL dropTrailing
  rw [dropWhile_eq_self_of_all_not _ _ h,
    dropWhile_eq_self_of_all_not _ _ (fun c hc => h c (List.mem_reverse.mp hc)),
    List.reverse_reverse]

theorem renderMDY_no_ws (m d y : List Char) (hm : m.all isDig = true)
    (hd : d.all isDig = true) (hy : y.all isDig = true) :
    ∀ c ∈ renderMDY m d y, jsWs c = false := by
  intro c hc
  unfold renderMDY at hc
  simp only [List.mem_append, List.mem_cons] at hc
  rcases hc with hc | rfl | hc | rfl | hc
  · exact not_ws_of_isDig c (List.all_eq_true.mp hm c hc)
  · decide
  · exact not_ws_of_isDig c (List.all_eq_true.mp hd c hc)
  · decide
  · exact not_ws_of_isDig c (List.all_eq_true.mp hy c hc)

theorem normalizeDateString_rendered (m d y : List Char)
    (hm : m.all isDig = true) (hm1 : 1 ≤ m.length) (hm2 : m.length ≤ 2)
    (hd : d.all isDig = true) (hd1 : 1 ≤ d.length) (hd2 : d.length ≤ 2)
    (hy : y.all isDig = true) (hy4 : y.length = 4) :
    normalizeDateString (renderMDY (pad2L m) (pad2L d) y) =
      renderMDY (pad2L m) (pad2L d) y := by
  have hpm := pad2L_all_dig m hm
  have hpd := pad2L_all_dig d hd
  have hpmlen := pad2L_len m hm1 hm2
  have hpdlen := pad2L_len d hd1 hd2
  have htrim : trimL (renderMDY (pad2L m) (pad2L d) y) =
      renderMDY (pad2L m) (pad2L d) y :=
    trimL_eq_self _ (renderMDY_no_ws _ _ _ hpm hpd hy)
  unfold normalizeDateString
  rw [htrim, matchDMY_render _ _ _ hpm (by omega) (by omega) hpd (by omega) (by omega) hy]
  simp [hy4, pad2L_of_len2 _ hpmlen, pad2L_of_len2 _ hpdlen]

theorem normalizeDateString_idem (cs : List Char) :
    normalizeDateString (normalizeDateString cs) = normalizeDateString cs := by
  cases hm : matchDMY (trimL cs) with
  | some g =>
    obtain ⟨g1, g2, g3⟩ := g
    obtain ⟨ha1, hl1, hl1', ha2, hl2, hl2', ha3⟩ := matchDMY_sound _ _ _ _ hm
    by_cases h4 : g3.length = 4
    · have hout : normalizeDateString cs = renderMDY (pad2L g1) (pad2L g2) g3 := by
        unfold normalizeDateString
        simp only [hm]
        rw [if_pos h4]
      rw [hout]
      exact normalizeDateString_rendered g1 g2 g3 ha1 hl1 hl1' ha2 hl2 hl2' ha3 h4
    · by_cases h2 : g3.length = 2
      · have hyy : natOfDigits g3 < 100 := natOfDigits_len2_lt g3 ha3 h2
        have hout : normalizeDateString cs =
            renderMDY (pad2L g1) (pad2L g2)
              (natDigits (if natOfDigits g3 < 50 then 2000 + natOfDigits g3
                else 1900 + natOfDigits g3)) := by
          unfold normalizeDateString
          simp only [hm]
          rw [if_neg h4, if_pos h2]
        rw [hout]
        have hyr : 1000 ≤ (if natOfDigits g3 < 50 then 2000 + natOfDigits g3
            else 1900 + natOfDigits g3) ∧
            (if natOfDigits g3 < 50 then 2000 + natOfDigits g3
              else 1900 + natOfDigits g3) ≤ 9999 := by
          split <;> omega
        exact normalizeDateString_rendered g1 g2 _ ha1 hl1 hl1' ha2 hl2 hl2'
          (natDigits_all_dig _) (natDigits_len4 _ hyr.1 hyr.2)
      · have hout : normalizeDateString cs = trimL cs := by
          unfold normalizeDateString
          simp only [hm]
          rw [if_neg h4, if_neg h2]
        rw [hout]
        unfold normalizeDateString
        rw [trimL_idem]
        simp only [hm]
        rw [if_neg h4, if_neg h2]
  | none =>
    have hout : normalizeDateString cs = trimL cs := by
      unfold normalizeDateString
      simp only [hm]
    rw [hout]
    unfold normalizeDateString
    rw [trimL_idem]
    simp only [hm]

/-- Value level: `normalizeDateValue` applied to its own output is a
fixed point. -/
theorem normalizeDateValue_idem (v : Value) :
    normalizeDateValue (.vStr (normalizeDateValue v)) = normalizeDateValue v := by
  cases v with
  | vNull =>
    show normalizeDateValue (.vStr "") = ""
    decide
  | vNum q =>
    by_cases hr : 40000 < q ∧ q < 60000
    · have hv : normalizeDateValue (.vNum q) =
          ⟨renderMDY
            (pad2L (natDigits (civilFromDaysPos (⌊q - 25569⌋ : Int).toNat).2.1))
            (pad2L (natDigits (civilFromDaysPos (⌊q - 25569⌋ : Int).toNat).2.2))
            (natDigits (civilFromDaysPos (⌊q - 25569⌋ : Int).toNat).1)⟩ := by
        simp only [normalizeDateValue]
        rw [if_pos hr]
      obtain ⟨hd1, hd2⟩ := excel_days_bounds q hr.1 hr.2
      obtain ⟨hb1, hb2, hb3, hb4, hb5, hb6⟩ := civilFromDaysPos_bounds _ hd1 hd2
      rw [hv]
      show (⟨normalizeDateString (renderMDY _ _ _)⟩ : String) = _
      have := normalizeDateString_rendered
        (natDigits (civilFromDaysPos (⌊q - 25569⌋ : Int).toNat).2.1)
        (natDigits (civilFromDaysPos (⌊q - 25569⌋ : Int).toNat).2.2)
        (natDigits (civilFromDaysPos (⌊q - 25569⌋ : Int).toNat).1)
        (natDigits_all_dig _)
        (natDigits_len_le2 _ (by omega)).1 (natDigits_len_le2 _ (by omega)).2
        (natDigits_all_dig _)
        (natDigits_len_le2 _ (by omega)).1 (natDigits_len_le2 _ (by omega)).2
        (natDigits_all_dig _) (natDigits_len4 _ (by omega) (by omega))
      rw [this]
    · have hv : normalizeDateValue (.vNum q) =
          ⟨normalizeDateString (numToString q).data⟩ := by
        simp only [normalizeDateValue]
        rw [if_neg hr]
      rw [hv]
      show (⟨normalizeDateString (normalizeDateString (numToString q).data)⟩ : String) = _
      rw [normalizeDateString_idem]
  | vBool b =>
    show (⟨normalizeDateString (normalizeDateString (jsToString (.vBool b)).data)⟩ :
      String) = ⟨normalizeDateString (jsToString (.vBool b)).data⟩
    rw [normalizeDateString_idem]
  | vStr s =>
    show (⟨normalizeDateString (normalizeDateString (jsToString (.vStr s)).data)⟩ :
      String) = ⟨normalizeDateString (jsToString (.vStr s)).data⟩
    rw [normalizeDateString_idem]
  | vArr l =>
    show (⟨normalizeDateString (normalizeDateString (jsToString (.vArr l)).data)⟩ :
      String) = ⟨normalizeDateString (jsToString (.vArr l)).data⟩
    rw [normalizeDateString_idem]
  | vObj fs =>
    show (⟨normalizeDateString (normalizeDateString (jsToString (.vObj fs)).data)⟩ :
      String) = ⟨normalizeDateString (jsToString (.vObj fs)).data⟩
    rw [normalizeDateString_idem]

theorem normEntry_nonobj (k : String) (v : Value) (h : ∀ fs, v ≠ .vObj fs) :
    normEntry k v =
      if jsTrimLower k = "date" then .vStr (normalizeDateValue v) else v := by
  cases v with
  | vObj fs => exact absurd rfl (h fs)
  | vNull => rfl
  | vBool b => rfl
  | vNum q => rfl
  | vStr s => rfl
  | vArr l => rfl

theorem entryTouched_nonobj (k : String) (v : Value) (h : ∀ fs, v ≠ .vObj fs) :
    entryTouched k v = decide (jsTrimLower k = "date") := by
  cases v with
  | vObj fs => exact absurd rfl (h fs)
  | vNull => rfl
  | vBool b => rfl
  | vNum q => rfl
  | vStr s => rfl
  | vArr l => rfl

theorem norm_idem_aux (n : Nat) :
    (∀ (k : String) (v : Value), sizeOf v ≤ n →
      normEntry k (normEntry k v) = normEntry k v) ∧
    ∀ l : List (String × Value), sizeOf l ≤ n →
      normFields (normFields l) = normFields l := by
  induction n using Nat.strong_induction_on with
  | _ n ih =>
    constructor
    · intro k v hv
      by_cases hobj : ∃ fs, v = .vObj fs
      · obtain ⟨fields, rfl⟩ := hobj
        simp only [Value.vObj.sizeOf_spec] at hv
        show Value.vObj (normFields (normFields fields)) = Value.vObj (normFields fields)
        rw [(ih (sizeOf fields) (by omega)).2 fields (le_refl _)]
      · have hne : ∀ fs, v ≠ .vObj fs := fun fs h => hobj ⟨fs, h⟩
        rw [normEntry_nonobj k v hne]
        by_cases hk : jsTrimLower k = "date"
        · rw [if_pos hk,
            normEntry_nonobj k _ (fun fs h => Value.noConfusion h), if_pos hk,
            normalizeDateValue_idem]
        · rw [if_neg hk, normEntry_nonobj k v hne, if_neg hk]
    · intro l hl
      cases l with
      | nil => rfl
      | cons p rest =>
        obtain ⟨k, v⟩ := p
        simp only [List.cons.sizeOf_spec, Prod.mk.sizeOf_spec] at hl
        show (k, normEntry k (normEntry k v)) :: normFields (normFields rest) =
          (k, normEntry k v) :: normFields rest
        rw [(ih (sizeOf v) (by omega)).1 k v (le_refl _),
          (ih (sizeOf rest) (by omega)).2 rest (le_refl _)]

theorem untouched_aux (n : Nat) :
    (∀ (k : String) (v : Value), sizeOf v ≤ n →
      entryTouched k v = false → normEntry k v = v) ∧
    ∀ l : List (String × Value), sizeOf l ≤ n →
      fieldsTouched l = false → normFields l = l := by
  induction n using Nat.strong_induction_on with
  | _ n ih =>
    constructor
    · intro k v hv ht
      by_cases hobj : ∃ fs, v = .vObj fs
      · obtain ⟨fields, rfl⟩ := hobj
        simp only [Value.vObj.sizeOf_spec] at hv
        have ht' : fieldsTouched fields = false := ht
        show Value.vObj (normFields fields) = Value.vObj fields
        rw [(ih (sizeOf fields) (by omega)).2 fields (le_refl _) ht']
      · have hne : ∀ fs, v ≠ .vObj fs := fun fs h => hobj ⟨fs, h⟩
        rw [entryTouched_nonobj k v hne] at ht
        rw [normEntry_nonobj k v hne, if_neg (of_decide_eq_false ht)]
    · intro l hl ht
      cases l with
      | nil => rfl
      | cons p rest =>
        obtain ⟨k, v⟩ := p
        simp only [List.cons.sizeOf_spec, Prod.mk.sizeOf_spec] at hl
        have ht' : entryTouched k v = false ∧ fieldsTouched rest = false := by
          have hor : (entryTouched k v || fieldsTouched rest) = false := ht
          simpa using hor
        show (k, normEntry k v) :: normFields rest = (k, v) :: rest
        rw [(ih (sizeOf v) (by omega)).1 k v (le_refl _) ht'.1,
          (ih (sizeOf rest) (by omega)).2 rest (le_refl _) ht'.2]

theorem normFields_keys (l : List (String × Value)) :
    (normFields l).map Prod.fst = l.map Prod.fst := by
  induction l with
  | nil => rfl
  | cons p rest ih =>
    obtain ⟨k, v⟩ := p
    show k :: (normFields rest).map Prod.fst = k :: rest.map Prod.fst
    rw [ih]

theorem normFields_getElem (l : List (String × Value)) (i : Nat) :
    (normFields l)[i]? = (l[i]?).map fun p => (p.1, normEntry p.1 p.2) := by
  induction l generalizing i with
  | nil => cases i <;> rfl
  | cons p rest ih =>
    obtain ⟨k, v⟩ := p
    have hnf : normFields ((k, v) :: rest) = (k, normEntry k v) :: normFields rest := rfl
    rw [hnf]
    cases i with
    | zero => rw [List.getElem?_cons_zero, List.getElem?_cons_zero]; rfl
    | succ j => rw [List.getElem?_cons_succ, List.getElem?_cons_succ]; exact ih j

/-- C5: date normalization is idempotent. For every value, `normalizeDateValue`
applied to its own output (as a string value) is a fixed point, and for every
row, `normalizeDatesInObject` applied twice equals `normalizeDatesInObject`
applied once. -/
theorem normalization_idempotent :
    (∀ v : Value,
      normalizeDateValue (.vStr (normalizeDateValue v)) = normalizeDateValue v) ∧
    ∀ row : Row,
      normalizeDatesInObject (normalizeDatesInObject row) = normalizeDatesInObject row := by
  refine ⟨normalizeDateValue_idem, fun row => ?_⟩
  exact (norm_idem_aux (sizeOf row)).2 row (le_refl _)

/-- C9: date normalization changes only fields whose trimmed, lower-cased key
equals "date", recursing into nested non-array objects. Keys are preserved in
order (none added or removed), an entry whose key is not date-named and whose
value is not a nested object passes through positionally unchanged, and a row
containing no date-named key anywhere (also under nested objects) is returned
entirely unchanged. -/
theorem date_normalization_frame :
    (∀ row : Row, (normalizeDatesInObject row).map Prod.fst = row.map Prod.fst) ∧
    (∀ (row : Row) (i : Nat) (k : String) (v : Value),
      row[i]? = some (k, v) → jsTrimLower k ≠ "date" → (∀ fs, v ≠ .vObj fs) →
      (normalizeDatesInObject row)[i]? = some (k, v)) ∧
    ∀ row : Row, fieldsTouched row = false → normalizeDatesInObject row = row := by
  refine ⟨normFields_keys, ?_, ?_⟩
  · intro row i k v hget hk hno
    show (normFields row)[i]? = some (k, v)
    rw [normFields_getElem, hget]
    show some (k, normEntry k v) = some (k, v)
    rw [normEntry_nonobj k v hno, if_neg hk]
  · intro row ht
    exact (untouched_aux (sizeOf row)).2 row (le_refl _) ht

theorem date_normalization_frame_example :
    (normalizeDatesInObject sampleRow)[1]? = some ("Amount", Value.vStr "100") :=
  date_normalization_frame.2.1 sampleRow 1 "Amount" (.vStr "100") rfl
    (by decide) (fun fs h => Value.noConfusion h)

end FinRecon
